import Mathlib

/-!
Verification of the stream-deck-plus-audiovis audio visualizer core.

The definitions below are shallow embeddings of the TypeScript source files:
IEEE doubles are modelled as rationals, typed arrays as functions from
indices or as lists, and imperative loops as folds or structural recursion.
Each claim theorem states one property of these embeddings.
-/

namespace Audiovis

/-! ## Constants from src/audiovis/src/audio/audio-engine.ts -/

def TOTAL_BINS : ℕ := 20

def BARS_PER_DIAL : ℕ := 5

def DIRTY_THRESHOLD : ℚ := 15/1000

def SMOOTH_ATTACK : ℚ := 3/4

def SMOOTH_DECAY : ℚ := 3/4

def AUTO_GAIN_ATTACK : ℚ := 3/100

def AUTO_GAIN_DECAY : ℚ := 1/1000

def AUTO_GAIN_MIN_PEAK : ℚ := 2/25

def AUTO_GAIN_MAX_BOOST : ℚ := 3/2

/-! ## AudioEngine.adjustGain (audio-engine.ts lines 152-155)
The source computes Math.max(0.2, Math.min(3.0, this.gain + delta)). -/

def adjustGain (gain delta : ℚ) : ℚ := max (1/5) (min 3 (gain + delta))

/-! ## Theme list and AudioEngine.nextTheme
THEME_NAMES (renderer, part_001 line 55) is the key list of the THEMES
record in insertion order.  nextTheme (audio-engine.ts lines 160-163) sets
themeIndex := (themeIndex + 1) % THEME_NAMES.length, and the currentTheme
getter returns THEME_NAMES[themeIndex] with fallback value to the first name. -/

def THEME_NAMES : List String := ["neon", "classic", "ocean", "fire", "purple"]

def nextThemeIndex (i : ℕ) : ℕ := (i + 1) % THEME_NAMES.length

def currentTheme (i : ℕ) : String := THEME_NAMES.getD i "neon"

/-! ## AudioEngine.tick numeric pipeline (audio-engine.ts lines 209-264)

The per-tick processing of the 20 raw bins: frame peak tracking, auto-gain
boost, user gain with clamp to 1, one spectral smoothing pass, and temporal
attack/decay smoothing.  Bin arrays are modelled as functions from indices;
only indices below TOTAL_BINS are ever read by the engine. -/

def framePeak (raw : ℕ → ℚ) : ℚ :=
  (List.range TOTAL_BINS).foldl (fun m i => if m < raw i then raw i else m) 0

def updatePeak (peak fp : ℚ) : ℚ :=
  let p := if peak < fp then peak + (fp - peak) * AUTO_GAIN_ATTACK
           else peak - (peak - max fp AUTO_GAIN_MIN_PEAK) * AUTO_GAIN_DECAY
  max p AUTO_GAIN_MIN_PEAK

def autoBoost (peak : ℚ) : ℚ := min AUTO_GAIN_MAX_BOOST (1 / peak)

def applyGainClamp (gain boost : ℚ) (raw : ℕ → ℚ) : ℕ → ℚ :=
  fun i => min 1 (raw i * gain * boost)

/-- One pass of the 3-tap spectral smoothing loop: interior bins are replaced
by the 1/4, 1/2, 1/4 average of the pre-pass copy, endpoints are untouched. -/
def spectralPass (bins : ℕ → ℚ) : ℕ → ℚ := fun i =>
  if 1 ≤ i ∧ i < TOTAL_BINS - 1 then
    bins (i-1) * (1/4) + bins i * (1/2) + bins (i+1) * (1/4)
  else bins i

/-- Temporal smoothing of one bin (audio-engine.ts lines 255-263): fast rise
with the attack factor, else multiplicative decay snapped to 0 below 0.01. -/
def temporalSmoothOne (prev raw : ℚ) : ℚ :=
  if prev < raw then prev + (raw - prev) * SMOOTH_ATTACK
  else if prev * SMOOTH_DECAY < 1/100 then 0 else prev * SMOOTH_DECAY

/-- The full per-tick bin processing: returns the updated auto-gain peak and
the updated smoothedBins array. -/
def tickBins (gain peak : ℚ) (prev raw : ℕ → ℚ) : ℚ × (ℕ → ℚ) :=
  let fp := framePeak raw
  let peak2 := updatePeak peak fp
  let boost := autoBoost peak2
  let gained := applyGainClamp gain boost raw
  let smoothedRaw := spectralPass gained
  (peak2, fun i => temporalSmoothOne (prev i) (smoothedRaw i))

/-! ## Per-consumer dirty detection and delivery (audio-engine.ts 267-323)

A RegisteredAction holds the dial column and the last-sent bin and edge
values.  tickConsumer models the body of the per-action loop inside tick:
slice extraction, edge computation, dirty detection, and, only when dirty,
the last-sent update together with exactly one render/delivery (counted by
the second component of the result). -/

structure RegisteredAction where
  column : ℕ
  lastSent : List ℚ
  lastLeftEdge : ℚ
  lastRightEdge : ℚ
deriving DecidableEq

/-- The state created by AudioEngine.registerAction (lines 122-129): zeroed
lastSent bins and both edges initialised to -1. -/
def registerAction (column : ℕ) : RegisteredAction :=
  { column := column
    lastSent := List.replicate BARS_PER_DIAL 0
    lastLeftEdge := -1
    lastRightEdge := -1 }

def dialSliceOf (smoothed : ℕ → ℚ) (column : ℕ) : List ℚ :=
  (List.range BARS_PER_DIAL).map (fun b => smoothed (column * BARS_PER_DIAL + b))

def leftEdgeOf (smoothed : ℕ → ℚ) (column : ℕ) : ℚ :=
  if 0 < column then
    (smoothed (column * BARS_PER_DIAL - 1) + smoothed (column * BARS_PER_DIAL)) * (1/2)
  else 0

def rightEdgeOf (smoothed : ℕ → ℚ) (column : ℕ) : ℚ :=
  if column < 3 then
    (smoothed (column * BARS_PER_DIAL + BARS_PER_DIAL - 1) +
      smoothed (column * BARS_PER_DIAL + BARS_PER_DIAL)) * (1/2)
  else 0

def isDirty (slice lastSent : List ℚ) (le re lle lre : ℚ) : Bool :=
  ((slice.zip lastSent).any fun p => decide (DIRTY_THRESHOLD < |p.1 - p.2|)) ||
    decide (DIRTY_THRESHOLD < |le - lle|) || decide (DIRTY_THRESHOLD < |re - lre|)

/-- One registered action processed by one tick.  The second component is the
number of render/delivery calls performed for this consumer this tick. -/
def tickConsumer (smoothed : ℕ → ℚ) (reg : RegisteredAction) :
    RegisteredAction × ℕ :=
  if isDirty (dialSliceOf smoothed reg.column) reg.lastSent
      (leftEdgeOf smoothed reg.column) (rightEdgeOf smoothed reg.column)
      reg.lastLeftEdge reg.lastRightEdge then
    ({ reg with
        lastSent := dialSliceOf smoothed reg.column
        lastLeftEdge := leftEdgeOf smoothed reg.column
        lastRightEdge := rightEdgeOf smoothed reg.column }, 1)
  else (reg, 0)

/-! ## WasapiAudioSource.processAudioChunk (part_004 lines 263-274)

The ring ingest: floor(byteLen / 4) float samples are decoded from the chunk
and written one at a time; the cursor advances modulo FFT_SIZE = 2048 and a
hop counter triggers computeFFT each time it reaches HOP_SIZE = 1024.  The
spectral outputs of computeFFT are irrelevant to claim C4 and are modelled by
the counter fftCount of its invocations. -/

def FFT_SIZE : ℕ := 2048

def HOP_SIZE : ℕ := FFT_SIZE / 2

structure SourceState where
  sampleBuffer : ℕ → ℚ
  writePos : ℕ
  hopCount : ℕ
  fftCount : ℕ

/-- One iteration of the for-loop body of processAudioChunk, writing the
sample with index i of the chunk. -/
def writeSample (decode : ℕ → ℚ) (i : ℕ) (st : SourceState) : SourceState :=
  let buf := fun j => if j = st.writePos then decode i else st.sampleBuffer j
  let wp := (st.writePos + 1) % FFT_SIZE
  let hc := st.hopCount + 1
  if HOP_SIZE ≤ hc then
    { sampleBuffer := buf, writePos := wp, hopCount := 0, fftCount := st.fftCount + 1 }
  else
    { sampleBuffer := buf, writePos := wp, hopCount := hc, fftCount := st.fftCount }

def processLoop (decode : ℕ → ℚ) : ℕ → ℕ → SourceState → SourceState
  | 0, _, st => st
  | k+1, i, st => processLoop decode k (i+1) (writeSample decode i st)

/-- processAudioChunk on a chunk of byteLen bytes whose samples are decoded
by the function decode (chunk.readFloatLE at offsets 4i). -/
def processAudioChunk (decode : ℕ → ℚ) (byteLen : ℕ) (st : SourceState) :
    SourceState :=
  processLoop decode (byteLen / 4) 0 st

/-- Observable effect of the processAudioChunk loop: cursor advance modulo
FFT_SIZE, hop counter arithmetic modulo HOP_SIZE, and the number of
computeFFT invocations. -/
theorem processLoop_observables (decode : ℕ → ℚ) (k : ℕ) :
    ∀ (i : ℕ) (st : SourceState), st.writePos < 2048 → st.hopCount < 1024 →
      (processLoop decode k i st).writePos = (st.writePos + k) % 2048 ∧
      (processLoop decode k i st).hopCount = (st.hopCount + k) % 1024 ∧
      (processLoop decode k i st).fftCount
        = st.fftCount + (st.hopCount + k) / 1024 := by
  have hFS : FFT_SIZE = 2048 := rfl
  have hHS : HOP_SIZE = 1024 := rfl
  induction k with
  | zero =>
      intro i st hw hh
      refine ⟨?_, ?_, ?_⟩ <;>
        simp [processLoop, Nat.mod_eq_of_lt hw, Nat.mod_eq_of_lt hh,
          Nat.div_eq_of_lt hh]
  | succ k ih =>
      intro i st hw hh
      have hstep : processLoop decode (k+1) i st
          = processLoop decode k (i+1) (writeSample decode i st) := rfl
      by_cases htrig : (1024:ℕ) ≤ st.hopCount + 1
      · have hs : writeSample decode i st =
            { sampleBuffer := fun j => if j = st.writePos then decode i else st.sampleBuffer j
              writePos := (st.writePos + 1) % 2048
              hopCount := 0
              fftCount := st.fftCount + 1 } := by
          simp [writeSample, hHS, hFS, htrig]
        obtain ⟨e1, e2, e3⟩ := ih (i+1) (writeSample decode i st)
          (by rw [hs]; exact Nat.mod_lt _ (by norm_num)) (by rw [hs]; norm_num)
        have hsum : st.hopCount + (k+1) = 1024 + k := by omega
        refine ⟨?_, ?_, ?_⟩
        · rw [hstep, e1, hs]
          dsimp only
          omega
        · rw [hstep, e2, hs]
          dsimp only
          omega
        · rw [hstep, e3, hs]
          dsimp only
          omega
      · have hs : writeSample decode i st =
            { sampleBuffer := fun j => if j = st.writePos then decode i else st.sampleBuffer j
              writePos := (st.writePos + 1) % 2048
              hopCount := st.hopCount + 1
              fftCount := st.fftCount } := by
          simp [writeSample, hHS, hFS, htrig]
        obtain ⟨e1, e2, e3⟩ := ih (i+1) (writeSample decode i st)
          (by rw [hs]; exact Nat.mod_lt _ (by norm_num)) (by rw [hs]; dsimp only; omega)
        refine ⟨?_, ?_, ?_⟩
        · rw [hstep, e1, hs]
          dsimp only
          omega
        · rw [hstep, e2, hs]
          dsimp only
          omega
        · rw [hstep, e3, hs]
          dsimp only
          omega

/-- C4: processAudioChunk consumes exactly floor(byteLen/4) samples (a
trailing partial sample is dropped without error), advances the write cursor
by that count modulo 2048, keeps the hop counter inside the interval from 0
to 1023 on return, and invokes the FFT/Goertzel analysis exactly once each
time the counter reaches 1024, resetting it to 0. -/
theorem C4_processAudioChunk (decode : ℕ → ℚ) (byteLen : ℕ) (st : SourceState)
    (hw : st.writePos < FFT_SIZE) (hh : st.hopCount < HOP_SIZE) :
    (processAudioChunk decode byteLen st).writePos
        = (st.writePos + byteLen / 4) % FFT_SIZE ∧
    (processAudioChunk decode byteLen st).hopCount
        = (st.hopCount + byteLen / 4) % HOP_SIZE ∧
    (processAudioChunk decode byteLen st).hopCount < HOP_SIZE ∧
    (processAudioChunk decode byteLen st).fftCount
        = st.fftCount + (st.hopCount + byteLen / 4) / HOP_SIZE ∧
    processAudioChunk decode byteLen st
        = processAudioChunk decode (4 * (byteLen / 4)) st := by
  have hFS : FFT_SIZE = 2048 := rfl
  have hHS : HOP_SIZE = 1024 := rfl
  simp only [hFS, hHS] at hw hh ⊢
  obtain ⟨e1, e2, e3⟩ := processLoop_observables decode (byteLen / 4) 0 st hw hh
  refine ⟨e1, e2, ?_, e3, ?_⟩
  · show (processLoop decode (byteLen / 4) 0 st).hopCount < 1024
    rw [e2]
    exact Nat.mod_lt _ (by norm_num)
  · unfold processAudioChunk
    rw [Nat.mul_div_cancel_left _ (by norm_num : 0 < 4)]

/-- Closed instance of C4_processAudioChunk: a 10-byte chunk from the initial
source state writes 2 samples and leaves hop counter 2. -/
theorem C4_processAudioChunk_witness :
    (⟨fun _ => 0, 0, 0, 0⟩ : SourceState).writePos < FFT_SIZE ∧
    (⟨fun _ => 0, 0, 0, 0⟩ : SourceState).hopCount < HOP_SIZE ∧
    (processAudioChunk (fun _ => 0) 10 ⟨fun _ => 0, 0, 0, 0⟩).writePos
      = (0 + 10 / 4) % FFT_SIZE := by
  refine ⟨by norm_num [FFT_SIZE], by norm_num [HOP_SIZE, FFT_SIZE], ?_⟩
  exact (C4_processAudioChunk (fun _ => 0) 10 ⟨fun _ => 0, 0, 0, 0⟩
    (by norm_num [FFT_SIZE]) (by norm_num [HOP_SIZE, FFT_SIZE])).1

/-- C5: per bin, the tick computes exactly the claimed temporal smoothing:
if the new (gain-scaled, spectrally smoothed) raw value exceeds the previous
smoothed value, the result is previous + (raw - previous) * 0.75; otherwise
the result is previous * 0.75, snapped to exactly 0 when it falls below 0.01. -/
theorem C5_temporal_smoothing (gain peak : ℚ) (prev raw : ℕ → ℚ) (i : ℕ) :
    (tickBins gain peak prev raw).2 i =
      if prev i <
          spectralPass (applyGainClamp gain (autoBoost (updatePeak peak (framePeak raw))) raw) i
      then prev i +
          (spectralPass (applyGainClamp gain (autoBoost (updatePeak peak (framePeak raw))) raw) i
            - prev i) * (3/4)
      else if prev i * (3/4) < 1/100 then 0 else prev i * (3/4) := by
  simp only [tickBins, temporalSmoothOne, SMOOTH_ATTACK, SMOOTH_DECAY]

/-- Splits a universally bounded statement over the five dial bins into its
five instances. -/
theorem ball_five_iff (P : ℕ → Prop) :
    (∀ b < 5, P b) ↔ P 0 ∧ P 1 ∧ P 2 ∧ P 3 ∧ P 4 := by
  constructor
  · intro h
    exact ⟨h 0 (by norm_num), h 1 (by norm_num), h 2 (by norm_num),
      h 3 (by norm_num), h 4 (by norm_num)⟩
  · rintro ⟨p0, p1, p2, p3, p4⟩ b hb
    interval_cases b <;> assumption

/-- C2: per consumer per tick, if no dial bin and neither edge moved by more
than the dirty threshold 0.015 since the last-sent state, no render happens
and the registration is unchanged; if any moved by more than 0.015, exactly
one render happens and the last-sent snapshot is overwritten with the new
bin and edge values. -/
theorem C2_dirty_detection (smoothed : ℕ → ℚ) (reg : RegisteredAction)
    (hlen : reg.lastSent.length = BARS_PER_DIAL) :
    (((∀ b < BARS_PER_DIAL,
        |smoothed (reg.column * BARS_PER_DIAL + b) - reg.lastSent.getD b 0|
          ≤ DIRTY_THRESHOLD) ∧
      |leftEdgeOf smoothed reg.column - reg.lastLeftEdge| ≤ DIRTY_THRESHOLD ∧
      |rightEdgeOf smoothed reg.column - reg.lastRightEdge| ≤ DIRTY_THRESHOLD) →
      tickConsumer smoothed reg = (reg, 0)) ∧
    (((∃ b < BARS_PER_DIAL,
        DIRTY_THRESHOLD
          < |smoothed (reg.column * BARS_PER_DIAL + b) - reg.lastSent.getD b 0|) ∨
      DIRTY_THRESHOLD < |leftEdgeOf smoothed reg.column - reg.lastLeftEdge| ∨
      DIRTY_THRESHOLD < |rightEdgeOf smoothed reg.column - reg.lastRightEdge|) →
      tickConsumer smoothed reg =
        ({ reg with
            lastSent := dialSliceOf smoothed reg.column
            lastLeftEdge := leftEdgeOf smoothed reg.column
            lastRightEdge := rightEdgeOf smoothed reg.column }, 1)) := by
  obtain ⟨column, lastSent, lle, lre⟩ := reg
  simp only [BARS_PER_DIAL] at hlen ⊢
  rcases lastSent with _ | ⟨y0, _ | ⟨y1, _ | ⟨y2, _ | ⟨y3, _ | ⟨y4, _ | ⟨y5, tl⟩⟩⟩⟩⟩⟩ <;>
      simp only [List.length_cons, List.length_nil] at hlen <;>
    try omega
  have hslice : dialSliceOf smoothed column =
      [smoothed (column * 5 + 0), smoothed (column * 5 + 1), smoothed (column * 5 + 2),
       smoothed (column * 5 + 3), smoothed (column * 5 + 4)] := rfl
  have hdirty : isDirty (dialSliceOf smoothed column) [y0, y1, y2, y3, y4]
      (leftEdgeOf smoothed column) (rightEdgeOf smoothed column) lle lre = true ↔
      ((DIRTY_THRESHOLD < |smoothed (column * 5 + 0) - y0| ∨
        DIRTY_THRESHOLD < |smoothed (column * 5 + 1) - y1| ∨
        DIRTY_THRESHOLD < |smoothed (column * 5 + 2) - y2| ∨
        DIRTY_THRESHOLD < |smoothed (column * 5 + 3) - y3| ∨
        DIRTY_THRESHOLD < |smoothed (column * 5 + 4) - y4|) ∨
       DIRTY_THRESHOLD < |leftEdgeOf smoothed column - lle| ∨
       DIRTY_THRESHOLD < |rightEdgeOf smoothed column - lre|) := by
    rw [hslice]
    simp [isDirty, List.zip_cons_cons, List.any_cons, List.any_nil,
      Bool.or_eq_true, decide_eq_true_eq, or_assoc]
  constructor
  · rintro ⟨hbins, hle, hre⟩
    rw [ball_five_iff] at hbins
    obtain ⟨p0, p1, p2, p3, p4⟩ := hbins
    simp only [List.getD_cons_zero, List.getD_cons_succ] at p0 p1 p2 p3 p4
    have hfalse : isDirty (dialSliceOf smoothed column) [y0, y1, y2, y3, y4]
        (leftEdgeOf smoothed column) (rightEdgeOf smoothed column) lle lre = false := by
      rw [Bool.eq_false_iff]
      intro hc
      rcases hdirty.mp hc with (h | h | h | h | h) | h | h <;> linarith
    simp [tickConsumer, hfalse]
  · intro hdis
    have htrue : isDirty (dialSliceOf smoothed column) [y0, y1, y2, y3, y4]
        (leftEdgeOf smoothed column) (rightEdgeOf smoothed column) lle lre = true := by
      rw [hdirty]
      rcases hdis with ⟨b, hb, hgt⟩ | h | h
      · left
        interval_cases b <;>
          simp only [List.getD_cons_zero, List.getD_cons_succ] at hgt
        · exact Or.inl hgt
        · exact Or.inr (Or.inl hgt)
        · exact Or.inr (Or.inr (Or.inl hgt))
        · exact Or.inr (Or.inr (Or.inr (Or.inl hgt)))
        · exact Or.inr (Or.inr (Or.inr (Or.inr hgt)))
      · right; left; exact h
      · right; right; exact h
    simp [tickConsumer, htrue]

/-- Closed instance of C2_dirty_detection: an unchanged all-zero state is not
dirty and produces no render. -/
theorem C2_dirty_detection_witness :
    (⟨0, [0, 0, 0, 0, 0], 0, 0⟩ : RegisteredAction).lastSent.length = BARS_PER_DIAL ∧
    tickConsumer (fun _ => 0) ⟨0, [0, 0, 0, 0, 0], 0, 0⟩
      = (⟨0, [0, 0, 0, 0, 0], 0, 0⟩, 0) := by
  refine ⟨by decide, ?_⟩
  exact (C2_dirty_detection (fun _ => 0) ⟨0, [0, 0, 0, 0, 0], 0, 0⟩ (by decide)).1
    (by refine ⟨?_, by norm_num [leftEdgeOf, DIRTY_THRESHOLD],
          by norm_num [rightEdgeOf, DIRTY_THRESHOLD]⟩
        intro b hb
        simp only [BARS_PER_DIAL] at hb
        interval_cases b <;>
          norm_num [DIRTY_THRESHOLD, List.getD_cons_zero, List.getD_cons_succ])

/-- C10: the first tick after registerAction always classifies the consumer
as dirty and delivers a frame: registration sets both last-sent edges to -1
while actual edge values are nonnegative, so the edge difference is at least
1 and exceeds the dirty threshold. -/
theorem C10_first_tick_dirty (smoothed : ℕ → ℚ) (column : ℕ)
    (hpos : ∀ i, 0 ≤ smoothed i) :
    (registerAction column).lastLeftEdge = -1 ∧
    (registerAction column).lastRightEdge = -1 ∧
    0 ≤ leftEdgeOf smoothed column ∧
    1 ≤ |leftEdgeOf smoothed column - (registerAction column).lastLeftEdge| ∧
    (tickConsumer smoothed (registerAction column)).2 = 1 := by
  have hle : 0 ≤ leftEdgeOf smoothed column := by
    unfold leftEdgeOf
    split
    · have h1 := hpos (column * BARS_PER_DIAL - 1)
      have h2 := hpos (column * BARS_PER_DIAL)
      linarith
    · exact le_refl 0
  have habs : 1 ≤ |leftEdgeOf smoothed column - (-1)| := by
    rw [abs_of_nonneg (by linarith)]
    linarith
  have hgt : DIRTY_THRESHOLD < |leftEdgeOf smoothed column - (-1)| := by
    have : DIRTY_THRESHOLD < 1 := by norm_num [DIRTY_THRESHOLD]
    linarith
  have hdirty : isDirty (dialSliceOf smoothed column)
      (List.replicate BARS_PER_DIAL 0)
      (leftEdgeOf smoothed column) (rightEdgeOf smoothed column)
      (-1) (-1) = true := by
    simp only [isDirty, Bool.or_eq_true, decide_eq_true_eq]
    exact Or.inl (Or.inr hgt)
  refine ⟨rfl, rfl, hle, by simpa [registerAction] using habs, ?_⟩
  show (tickConsumer smoothed (registerAction column)).2 = 1
  unfold tickConsumer registerAction
  dsimp only
  rw [if_pos hdirty]

/-- Closed instance of C10_first_tick_dirty at the all-zero smoothed state
and column 0. -/
theorem C10_first_tick_dirty_witness :
    (∀ i : ℕ, (0:ℚ) ≤ (fun _ => (0:ℚ)) i) ∧
    (tickConsumer (fun _ => (0:ℚ)) (registerAction 0)).2 = 1 := by
  refine ⟨fun i => le_refl 0, ?_⟩
  exact (C10_first_tick_dirty (fun _ => 0) 0 (fun i => le_refl 0)).2.2.2.2

/-! ## Curve renderer (src/unnamed/part_001)

Monotone cubic spline over control points, gradient sampling and the pixel
channel computations of renderVisualizerFrame.  Control point arrays are
modelled as functions from indices; numbers as rationals. -/

def STRIP_WIDTH : ℕ := 200

def STRIP_HEIGHT : ℕ := 100

def clamp01 (v : ℚ) : ℚ := max 0 (min 1 v)

/-- Per-segment secant slopes of the control polygon (precomputeTangents,
part_001 lines 123-126). -/
def cpSlopes (cpX cpY : ℕ → ℚ) (k : ℕ) : ℚ :=
  (cpY (k+1) - cpY k) / (cpX (k+1) - cpX k)

/-- Tangent selection of precomputeTangents (part_001 lines 127-137):
endpoint tangents copy the adjacent secant; an interior tangent is 0 when
the neighboring secants have product at most 0, else their average. -/
def cpTangents (cpX cpY : ℕ → ℚ) (n k : ℕ) : ℚ :=
  if k = 0 then cpSlopes cpX cpY 0
  else if k = n - 1 then cpSlopes cpX cpY (n - 2)
  else if cpSlopes cpX cpY (k-1) * cpSlopes cpX cpY k ≤ 0 then 0
  else (cpSlopes cpX cpY (k-1) + cpSlopes cpX cpY k) / 2

/-- The while-loop binary search of evalCurve, with explicit fuel; the
initial call supplies fuel hi - lo, which bounds the number of iterations. -/
def bsearchGo (cpX : ℕ → ℚ) (x : ℚ) : ℕ → ℕ → ℕ → ℕ
  | 0, lo, _ => lo
  | fuel+1, lo, hi =>
    if lo < hi then
      if cpX ((lo + hi) / 2 + 1) < x then bsearchGo cpX x fuel ((lo + hi) / 2 + 1) hi
      else bsearchGo cpX x fuel lo ((lo + hi) / 2)
    else lo

/-- The cubic Hermite basis combination evaluated by evalCurve
(part_001 lines 164-169). -/
def hermite (y0 y1 m0 m1 h t : ℚ) : ℚ :=
  (2*t^3 - 3*t^2 + 1) * y0 + (t^3 - 2*t^2 + t) * h * m0
    + (-2*t^3 + 3*t^2) * y1 + (t^3 - t^2) * h * m1

/-- The per-segment part of evalCurve (part_001 lines 158-169): fall back to
the left endpoint on a zero-width segment, else Hermite evaluation at the
normalized parameter t. -/
def evalSegment (cpX cpY cpT : ℕ → ℚ) (i : ℕ) (x : ℚ) : ℚ :=
  if cpX (i+1) - cpX i = 0 then cpY i
  else
    hermite (cpY i) (cpY (i+1)) (cpT i) (cpT (i+1)) (cpX (i+1) - cpX i)
      ((x - cpX i) / (cpX (i+1) - cpX i))

/-- evalCurve (part_001 lines 143-170): clamp to the end values outside the
control range, binary search for the containing segment, then cubic Hermite
evaluation with the precomputed tangents. -/
def evalCurve (cpX cpY cpT : ℕ → ℚ) (n : ℕ) (x : ℚ) : ℚ :=
  if n = 0 then 0
  else if x ≤ cpX 0 then cpY 0
  else if cpX (n-1) ≤ x then cpY (n-1)
  else evalSegment cpX cpY cpT (bsearchGo cpX x (n-2) 0 (n-2)) x

/-- The x coordinates of the control points built by renderVisualizerFrame
(part_001 lines 196-212): a left anchor at 0, band k at
((k - 1) + 0.5) / numBars of the last column, and a right anchor at the
last column STRIP_WIDTH - 1. -/
def cpXBuilt (numBars : ℕ) (k : ℕ) : ℚ :=
  if k = 0 then 0
  else if k ≤ numBars then
    (((k : ℚ) - 1) + 1/2) / (numBars : ℚ) * ((STRIP_WIDTH : ℚ) - 1)
  else (STRIP_WIDTH : ℚ) - 1

/-- The y coordinates of the control points built by renderVisualizerFrame:
each raw value is clamped to the unit interval before use. -/
def cpYBuilt (bins : ℕ → ℚ) (numBars : ℕ) (leftEdge rightEdge : ℚ) (k : ℕ) : ℚ :=
  if k = 0 then clamp01 leftEdge
  else if k ≤ numBars then clamp01 (bins (k-1))
  else clamp01 rightEdge

def maxH : ℚ := (STRIP_HEIGHT : ℚ) - 4

/-- Curve height per pixel column (part_001 lines 218-222): the spline value
is clamped to the unit interval and scaled by maxH = 96. -/
def curveHeight (cpX cpY cpT : ℕ → ℚ) (n : ℕ) (x : ℚ) : ℚ :=
  clamp01 (evalCurve cpX cpY cpT n x) * maxH

structure ColorStop where
  pos : ℚ
  r : ℚ
  g : ℚ
  b : ℚ
deriving DecidableEq

def neonStops : List ColorStop :=
  [⟨0, 0, 255, 220⟩, ⟨7/20, 0, 120, 255⟩, ⟨13/20, 140, 0, 255⟩, ⟨1, 255, 0, 140⟩]

def classicStops : List ColorStop :=
  [⟨0, 0, 200, 0⟩, ⟨1/2, 220, 220, 0⟩, ⟨4/5, 255, 120, 0⟩, ⟨1, 255, 20, 0⟩]

def oceanStops : List ColorStop :=
  [⟨0, 0, 40, 120⟩, ⟨2/5, 0, 120, 255⟩, ⟨3/4, 0, 210, 255⟩, ⟨1, 180, 255, 255⟩]

def fireStops : List ColorStop :=
  [⟨0, 120, 0, 0⟩, ⟨7/20, 220, 40, 0⟩, ⟨13/20, 255, 160, 0⟩, ⟨1, 255, 255, 80⟩]

def purpleStops : List ColorStop :=
  [⟨0, 40, 0, 80⟩, ⟨7/20, 100, 0, 200⟩, ⟨13/20, 200, 50, 255⟩, ⟨1, 255, 150, 255⟩]

def THEMES : List (String × List ColorStop) :=
  [("neon", neonStops), ("classic", classicStops), ("ocean", oceanStops),
   ("fire", fireStops), ("purple", purpleStops)]

/-- The scan of sampleGradient over adjacent stop pairs, returning the first
pair whose positions bracket t, if any. -/
def findStopPair : List ColorStop → ℚ → Option (ColorStop × ColorStop)
  | s1 :: s2 :: rest, t =>
      if s1.pos ≤ t ∧ t ≤ s2.pos then some (s1, s2) else findStopPair (s2 :: rest) t
  | _, _ => none

def defaultStop : ColorStop := ⟨0, 0, 0, 0⟩

/-- The lower/upper pair actually used by sampleGradient: the bracketing pair
when the scan finds one, else the first and last stops. -/
def stopPairOf (stops : List ColorStop) (t : ℚ) : ColorStop × ColorStop :=
  (findStopPair stops t).getD
    (stops.headD defaultStop, (stops.getLast?).getD defaultStop)

/-- sampleGradient (part_001 lines 94-116): clamp t, pick the bracketing
stops, interpolate each channel linearly and round.  A zero position range
forces the interpolation fraction to 0. -/
def sampleGradient (stops : List ColorStop) (t0 : ℚ) : ℤ × ℤ × ℤ :=
  let t := max 0 (min 1 t0)
  let p := stopPairOf stops t
  let range := p.2.pos - p.1.pos
  let frac := if range = 0 then 0 else (t - p.1.pos) / range
  (round (p.1.r + (p.2.r - p.1.r) * frac),
   round (p.1.g + (p.2.g - p.1.g) * frac),
   round (p.1.b + (p.2.b - p.1.b) * frac))

/-- The bottom fade factor of the gradient fill (part_001 line 241). -/
def bottomFade (distFromBottom : ℕ) : ℚ :=
  if distFromBottom < 3 then ((distFromBottom : ℚ) + 1) * (1/4) else 1

/-- A fill pixel channel (part_001 lines 244-246): the faded LUT channel,
rounded to an integer by adding one half and truncating. -/
def fillChannel (c : ℚ) (distFromBottom : ℕ) : ℤ :=
  ⌊c * bottomFade distFromBottom + 1/2⌋

/-- Glow brightness multipliers for the three glow rows (part_001 line 261). -/
def glowBrightness (row : ℕ) : ℚ :=
  if row = 0 then 8/5 else if row = 1 then 13/10 else 11/10

/-- A glow pixel channel (part_001 lines 263-265): brightness-scaled LUT
channel, rounded and clamped to full intensity 255. -/
def glowChannel (c : ℚ) (row : ℕ) : ℤ :=
  min 255 ⌊c * glowBrightness row + 1/2⌋

/-- C8: adjustGain applied with any delta keeps the gain inside the interval
from 1/5 (= 0.2) to 3, and therefore so does any sequence of adjustGain calls
started inside that interval. -/
theorem C8_adjustGain_clamped (gain : ℚ) (h1 : 1/5 ≤ gain) (h2 : gain ≤ 3) :
    (∀ delta : ℚ, 1/5 ≤ adjustGain gain delta ∧ adjustGain gain delta ≤ 3) ∧
    (∀ deltas : List ℚ,
      1/5 ≤ deltas.foldl adjustGain gain ∧ deltas.foldl adjustGain gain ≤ 3) := by
  have base : ∀ g d : ℚ, 1/5 ≤ adjustGain g d ∧ adjustGain g d ≤ 3 := by
    intro g d
    refine ⟨le_max_left _ _, max_le (by norm_num) (min_le_left _ _)⟩
  refine ⟨fun d => base gain d, ?_⟩
  intro deltas
  induction deltas generalizing gain with
  | nil => exact ⟨h1, h2⟩
  | cons d rest ih =>
      simpa [List.foldl_cons] using ih (adjustGain gain d) (base gain d).1 (base gain d).2

/-- Closed instance of C8_adjustGain_clamped at gain 1 (the initial engine gain)
and delta 10. -/
theorem C8_adjustGain_clamped_witness :
    (1/5 : ℚ) ≤ 1 ∧ (1 : ℚ) ≤ 3 ∧
      (1/5 ≤ adjustGain 1 10 ∧ adjustGain 1 10 ≤ 3) := by
  refine ⟨by norm_num, by norm_num, ?_⟩
  exact (C8_adjustGain_clamped 1 (by norm_num) (by norm_num)).1 10

/-- C9: nextTheme advances the theme index modulo the length of the theme
list, currentTheme stays a member of the list, and five applications of
nextTheme return to the starting index. -/
theorem C9_theme_cycle (i : ℕ) (h : i < 5) :
    THEME_NAMES.length = 5 ∧
    nextThemeIndex i < 5 ∧
    currentTheme i ∈ THEME_NAMES ∧
    currentTheme (nextThemeIndex i) ∈ THEME_NAMES ∧
    nextThemeIndex (nextThemeIndex (nextThemeIndex (nextThemeIndex
      (nextThemeIndex i)))) = i := by
  have all : ∀ j, j < 5 →
      THEME_NAMES.length = 5 ∧
      nextThemeIndex j < 5 ∧
      currentTheme j ∈ THEME_NAMES ∧
      currentTheme (nextThemeIndex j) ∈ THEME_NAMES ∧
      nextThemeIndex (nextThemeIndex (nextThemeIndex (nextThemeIndex
        (nextThemeIndex j)))) = j := by decide
  exact all i h

/-- Closed instance of C9_theme_cycle at the initial theme index 0. -/
theorem C9_theme_cycle_witness :
    0 < 5 ∧ nextThemeIndex 0 < 5 ∧
      nextThemeIndex (nextThemeIndex (nextThemeIndex (nextThemeIndex
        (nextThemeIndex 0)))) = 0 := by
  refine ⟨by decide, ?_, ?_⟩
  · exact (C9_theme_cycle 0 (by decide)).2.1
  · exact (C9_theme_cycle 0 (by decide)).2.2.2.2

/-! ## Range lemmas for claim C3 -/

theorem clamp01_range (v : ℚ) : 0 ≤ clamp01 v ∧ clamp01 v ≤ 1 :=
  ⟨le_max_left _ _, max_le (by norm_num) (min_le_left _ _)⟩

theorem tickBins_snd (gain peak : ℚ) (prev raw : ℕ → ℚ) (i : ℕ) :
    (tickBins gain peak prev raw).2 i =
      temporalSmoothOne (prev i)
        (spectralPass
          (applyGainClamp gain (autoBoost (updatePeak peak (framePeak raw))) raw) i) := rfl

theorem updatePeak_min (peak fp : ℚ) : AUTO_GAIN_MIN_PEAK ≤ updatePeak peak fp := by
  unfold updatePeak
  exact le_max_right _ _

theorem autoBoost_nonneg (peak : ℚ) (h : 0 < peak) : 0 ≤ autoBoost peak := by
  unfold autoBoost AUTO_GAIN_MAX_BOOST
  exact le_min (by norm_num) (by positivity)

theorem tickBins_unit (gain peak : ℚ) (prev raw : ℕ → ℚ) (hg : 0 ≤ gain)
    (hprev : ∀ i, 0 ≤ prev i ∧ prev i ≤ 1) (hraw : ∀ i, 0 ≤ raw i) (i : ℕ) :
    0 ≤ (tickBins gain peak prev raw).2 i ∧ (tickBins gain peak prev raw).2 i ≤ 1 := by
  have hpeak : 0 < updatePeak peak (framePeak raw) :=
    lt_of_lt_of_le (by norm_num [AUTO_GAIN_MIN_PEAK]) (updatePeak_min _ _)
  have hboost : 0 ≤ autoBoost (updatePeak peak (framePeak raw)) :=
    autoBoost_nonneg _ hpeak
  have hgained : ∀ j,
      0 ≤ applyGainClamp gain (autoBoost (updatePeak peak (framePeak raw))) raw j ∧
      applyGainClamp gain (autoBoost (updatePeak peak (framePeak raw))) raw j ≤ 1 := by
    intro j
    refine ⟨le_min (by norm_num) ?_, min_le_left _ _⟩
    exact mul_nonneg (mul_nonneg (hraw j) hg) hboost
  have hs : ∀ j,
      0 ≤ spectralPass (applyGainClamp gain (autoBoost (updatePeak peak (framePeak raw))) raw) j ∧
      spectralPass (applyGainClamp gain (autoBoost (updatePeak peak (framePeak raw))) raw) j ≤ 1 := by
    intro j
    unfold spectralPass
    split
    · obtain ⟨a0, a1⟩ := hgained (j-1)
      obtain ⟨b0, b1⟩ := hgained j
      obtain ⟨c0, c1⟩ := hgained (j+1)
      constructor <;> nlinarith
    · exact hgained j
  rw [tickBins_snd]
  obtain ⟨s0, s1⟩ := hs i
  obtain ⟨p0, p1⟩ := hprev i
  unfold temporalSmoothOne
  split
  · rename_i hlt
    simp only [SMOOTH_ATTACK]
    constructor <;> nlinarith
  · split
    · exact ⟨le_refl 0, by norm_num⟩
    · simp only [SMOOTH_DECAY]
      constructor <;> nlinarith

theorem findStopPair_sound (stops : List ColorStop) :
    ∀ (t : ℚ) (l u : ColorStop), findStopPair stops t = some (l, u) →
      l ∈ stops ∧ u ∈ stops ∧ l.pos ≤ t ∧ t ≤ u.pos := by
  induction stops with
  | nil => intro t l u h; simp [findStopPair] at h
  | cons s1 rest ih =>
      cases rest with
      | nil => intro t l u h; simp [findStopPair] at h
      | cons s2 rest2 =>
          intro t l u h
          by_cases hc : s1.pos ≤ t ∧ t ≤ s2.pos
          · rw [findStopPair, if_pos hc] at h
            obtain ⟨rfl, rfl⟩ : s1 = l ∧ s2 = u := by
              have := Option.some.inj h
              exact ⟨congrArg Prod.fst this, congrArg Prod.snd this⟩
            exact ⟨List.mem_cons_self _ _, List.mem_cons_of_mem _ (List.mem_cons_self _ _),
              hc.1, hc.2⟩
          · rw [findStopPair, if_neg hc] at h
            obtain ⟨h1, h2, h3, h4⟩ := ih t l u h
            exact ⟨List.mem_cons_of_mem _ h1, List.mem_cons_of_mem _ h2, h3, h4⟩

theorem stopPairOf_sound (stops : List ColorStop) :
    ∀ t : ℚ, stops ≠ [] → (stops.headD defaultStop).pos ≤ t →
      t ≤ ((stops.getLast?).getD defaultStop).pos →
      (stopPairOf stops t).1 ∈ stops ∧ (stopPairOf stops t).2 ∈ stops ∧
      (stopPairOf stops t).1.pos ≤ t ∧ t ≤ (stopPairOf stops t).2.pos := by
  induction stops with
  | nil => intro t hne; exact absurd rfl hne
  | cons s1 rest ih =>
      cases rest with
      | nil =>
          intro t _ hhead hlast
          refine ⟨?_, ?_, ?_, ?_⟩ <;>
            simp_all [stopPairOf, findStopPair, List.headD, List.getLast?]
      | cons s2 rest2 =>
          intro t _ hhead hlast
          by_cases hc : s1.pos ≤ t ∧ t ≤ s2.pos
          · have hp : stopPairOf (s1 :: s2 :: rest2) t = (s1, s2) := by
              unfold stopPairOf
              rw [findStopPair, if_pos hc]
              rfl
            rw [hp]
            exact ⟨List.mem_cons_self _ _, List.mem_cons_of_mem _ (List.mem_cons_self _ _),
              hc.1, hc.2⟩
          · have hs2 : s2.pos ≤ t := by
              rcases not_and_or.mp hc with h | h
              · exact absurd hhead (by simpa [List.headD] using h)
              · exact le_of_lt (not_le.mp h)
            have hlast2 : t ≤ (((s2 :: rest2).getLast?).getD defaultStop).pos := by
              have : (s1 :: s2 :: rest2).getLast? = (s2 :: rest2).getLast? := by
                simp [List.getLast?_cons_cons]
              rwa [this] at hlast
            have hrec := ih t (by simp) (by simpa [List.headD] using hs2) hlast2
            cases hfind : findStopPair (s2 :: rest2) t with
            | some p =>
                have hp : stopPairOf (s1 :: s2 :: rest2) t = p := by
                  unfold stopPairOf
                  rw [findStopPair, if_neg hc, hfind]
                  rfl
                obtain ⟨m1, m2, b1, b2⟩ := findStopPair_sound _ t p.1 p.2 (by simpa using hfind)
                rw [hp]
                exact ⟨List.mem_cons_of_mem _ m1, List.mem_cons_of_mem _ m2, b1, b2⟩
            | none =>
                have hp : stopPairOf (s1 :: s2 :: rest2) t
                    = (s1, ((s2 :: rest2).getLast?).getD defaultStop) := by
                  unfold stopPairOf
                  rw [findStopPair, if_neg hc, hfind]
                  simp [List.getLast?_cons_cons]
                have hrecp : stopPairOf (s2 :: rest2) t
                    = (s2, ((s2 :: rest2).getLast?).getD defaultStop) := by
                  unfold stopPairOf
                  rw [hfind]
                  rfl
                rw [hrecp] at hrec
                rw [hp]
                refine ⟨List.mem_cons_self _ _, List.mem_cons_of_mem _ hrec.2.1, ?_, hrec.2.2.2⟩
                simpa [List.headD] using hhead

theorem interp_channel_range (a b f : ℚ) (ha0 : 0 ≤ a) (ha1 : a ≤ 255)
    (hb0 : 0 ≤ b) (hb1 : b ≤ 255) (hf0 : 0 ≤ f) (hf1 : f ≤ 1) :
    0 ≤ round (a + (b - a) * f) ∧ round (a + (b - a) * f) ≤ 255 := by
  have e : a + (b - a) * f = a * (1 - f) + b * f := by ring
  have h1 : 0 ≤ a * (1 - f) := mul_nonneg ha0 (by linarith)
  have h2 : 0 ≤ b * f := mul_nonneg hb0 hf0
  have h3 : a * (1 - f) ≤ 255 * (1 - f) := by nlinarith
  have h4 : b * f ≤ 255 * f := by nlinarith
  have hx0 : 0 ≤ a + (b - a) * f := by rw [e]; linarith
  have hx1 : a + (b - a) * f ≤ 255 := by rw [e]; linarith
  rw [round_eq]
  constructor
  · have : (0:ℤ) = ⌊(1/2 : ℚ)⌋ := by norm_num
    rw [this]
    exact Int.floor_le_floor (by linarith)
  · have h5 : ⌊(511/2 : ℚ)⌋ = 255 := by
      rw [Int.floor_eq_iff]
      norm_num
    calc ⌊a + (b - a) * f + 1/2⌋ ≤ ⌊(511/2 : ℚ)⌋ := Int.floor_le_floor (by linarith)
      _ = 255 := h5

theorem sampleGradient_range (stops : List ColorStop) (t0 : ℚ)
    (hne : stops ≠ [])
    (hfirst : (stops.headD defaultStop).pos ≤ 0)
    (hlast : 1 ≤ ((stops.getLast?).getD defaultStop).pos)
    (hch : ∀ s ∈ stops, (0 ≤ s.r ∧ s.r ≤ 255) ∧ (0 ≤ s.g ∧ s.g ≤ 255) ∧
      (0 ≤ s.b ∧ s.b ≤ 255)) :
    (0 ≤ (sampleGradient stops t0).1 ∧ (sampleGradient stops t0).1 ≤ 255) ∧
    (0 ≤ (sampleGradient stops t0).2.1 ∧ (sampleGradient stops t0).2.1 ≤ 255) ∧
    (0 ≤ (sampleGradient stops t0).2.2 ∧ (sampleGradient stops t0).2.2 ≤ 255) := by
  have ht0 : 0 ≤ max 0 (min 1 t0) := le_max_left _ _
  have ht1 : max 0 (min 1 t0) ≤ 1 := max_le (by norm_num) (min_le_left _ _)
  obtain ⟨m1, m2, b1, b2⟩ := stopPairOf_sound stops (max 0 (min 1 t0)) hne
    (le_trans hfirst ht0) (le_trans ht1 hlast)
  obtain ⟨hr1, hg1, hb1⟩ := hch _ m1
  obtain ⟨hr2, hg2, hb2⟩ := hch _ m2
  set p := stopPairOf stops (max 0 (min 1 t0)) with hp
  have hfr : 0 ≤ (if p.2.pos - p.1.pos = 0 then 0
      else (max 0 (min 1 t0) - p.1.pos) / (p.2.pos - p.1.pos)) ∧
      (if p.2.pos - p.1.pos = 0 then 0
      else (max 0 (min 1 t0) - p.1.pos) / (p.2.pos - p.1.pos)) ≤ 1 := by
    split
    · norm_num
    · rename_i hr
      have hrpos : 0 < p.2.pos - p.1.pos := by
        rcases lt_or_eq_of_le (by linarith : (0:ℚ) ≤ p.2.pos - p.1.pos) with h | h
        · exact h
        · exact absurd h.symm hr
      constructor
      · apply div_nonneg (by linarith) (le_of_lt hrpos)
      · rw [div_le_one hrpos]
        linarith
  have hsg : sampleGradient stops t0 =
      (round (p.1.r + (p.2.r - p.1.r) * (if p.2.pos - p.1.pos = 0 then 0
        else (max 0 (min 1 t0) - p.1.pos) / (p.2.pos - p.1.pos))),
       round (p.1.g + (p.2.g - p.1.g) * (if p.2.pos - p.1.pos = 0 then 0
        else (max 0 (min 1 t0) - p.1.pos) / (p.2.pos - p.1.pos))),
       round (p.1.b + (p.2.b - p.1.b) * (if p.2.pos - p.1.pos = 0 then 0
        else (max 0 (min 1 t0) - p.1.pos) / (p.2.pos - p.1.pos)))) := rfl
  rw [hsg]
  exact ⟨interp_channel_range _ _ _ hr1.1 hr1.2 hr2.1 hr2.2 hfr.1 hfr.2,
    interp_channel_range _ _ _ hg1.1 hg1.2 hg2.1 hg2.2 hfr.1 hfr.2,
    interp_channel_range _ _ _ hb1.1 hb1.2 hb2.1 hb2.2 hfr.1 hfr.2⟩

theorem floor_half_range (x : ℚ) (h0 : 0 ≤ x) (h1 : x ≤ 255) :
    0 ≤ ⌊x + 1/2⌋ ∧ ⌊x + 1/2⌋ ≤ 255 := by
  constructor
  · have : (0:ℤ) = ⌊(1/2 : ℚ)⌋ := by norm_num
    rw [this]
    exact Int.floor_le_floor (by linarith)
  · have h5 : ⌊(511/2 : ℚ)⌋ = 255 := by
      rw [Int.floor_eq_iff]
      norm_num
    calc ⌊x + 1/2⌋ ≤ ⌊(511/2 : ℚ)⌋ := Int.floor_le_floor (by linarith)
      _ = 255 := h5

/-- C3: every smoothed bin produced by a tick lies in the unit interval,
every control-point y value and clamped spline amplitude lies in the unit
interval so curve heights lie in [0, 96], and every color channel computed
for the pixel buffer (gradient LUT entries, faded fill channels, and
brightness-boosted glow channels) lies in [0, 255]. -/
theorem C3_value_ranges :
    (∀ (gain peak : ℚ) (prev raw : ℕ → ℚ), 0 ≤ gain →
      (∀ i, 0 ≤ prev i ∧ prev i ≤ 1) → (∀ i, 0 ≤ raw i) →
      ∀ i, 0 ≤ (tickBins gain peak prev raw).2 i ∧ (tickBins gain peak prev raw).2 i ≤ 1) ∧
    (∀ (bins : ℕ → ℚ) (numBars : ℕ) (el er : ℚ) (k : ℕ),
      0 ≤ cpYBuilt bins numBars el er k ∧ cpYBuilt bins numBars el er k ≤ 1) ∧
    (∀ (cx cy ct : ℕ → ℚ) (n : ℕ) (x : ℚ),
      0 ≤ curveHeight cx cy ct n x ∧ curveHeight cx cy ct n x ≤ 96) ∧
    (∀ p ∈ THEMES, ∀ t0 : ℚ,
      (0 ≤ (sampleGradient p.2 t0).1 ∧ (sampleGradient p.2 t0).1 ≤ 255) ∧
      (0 ≤ (sampleGradient p.2 t0).2.1 ∧ (sampleGradient p.2 t0).2.1 ≤ 255) ∧
      (0 ≤ (sampleGradient p.2 t0).2.2 ∧ (sampleGradient p.2 t0).2.2 ≤ 255)) ∧
    (∀ (c : ℚ) (dfb : ℕ), 0 ≤ c → c ≤ 255 →
      0 ≤ fillChannel c dfb ∧ fillChannel c dfb ≤ 255) ∧
    (∀ (c : ℚ) (row : ℕ), 0 ≤ c →
      0 ≤ glowChannel c row ∧ glowChannel c row ≤ 255) := by
  refine ⟨tickBins_unit, ?_, ?_, ?_, ?_, ?_⟩
  · intro bins numBars el er k
    unfold cpYBuilt
    split
    · exact clamp01_range _
    · split
      · exact clamp01_range _
      · exact clamp01_range _
  · intro cx cy ct n x
    unfold curveHeight
    obtain ⟨h0, h1⟩ := clamp01_range (evalCurve cx cy ct n x)
    have hmax : maxH = 96 := by norm_num [maxH, STRIP_HEIGHT]
    rw [hmax]
    constructor <;> nlinarith
  · intro p hp t0
    fin_cases hp <;>
      exact sampleGradient_range _ t0 (by decide) (by decide) (by decide) (by decide)
  · intro c dfb hc0 hc1
    unfold fillChannel
    have hf : 0 ≤ bottomFade dfb ∧ bottomFade dfb ≤ 1 := by
      unfold bottomFade
      split
      · rename_i hlt
        constructor
        · positivity
        · have : (dfb : ℚ) ≤ 2 := by exact_mod_cast Nat.lt_succ_iff.mp hlt
          linarith
      · norm_num
    apply floor_half_range
    · exact mul_nonneg hc0 hf.1
    · nlinarith [hf.1, hf.2]
  · intro c row hc0
    unfold glowChannel
    constructor
    · apply le_min (by norm_num)
      have hb : 0 ≤ glowBrightness row := by
        unfold glowBrightness
        split
        · norm_num
        · split <;> norm_num
      have : (0:ℚ) ≤ c * glowBrightness row + 1/2 := by nlinarith
      have h0 : (0:ℤ) = ⌊(0:ℚ)⌋ := by norm_num
      rw [h0]
      exact Int.floor_le_floor (by linarith [mul_nonneg hc0 hb])
    · exact min_le_left _ _

/-- Closed instance of C3_value_ranges: the all-zero tick state stays in the
unit interval and a full-intensity fill channel stays a byte. -/
theorem C3_value_ranges_witness :
    (0:ℚ) ≤ 1 ∧ (∀ i : ℕ, (0:ℚ) ≤ (fun _ => (0:ℚ)) i ∧ (fun _ => (0:ℚ)) i ≤ 1) ∧
    (0 ≤ (tickBins 1 (2/25) (fun _ => 0) (fun _ => 0)).2 0 ∧
      (tickBins 1 (2/25) (fun _ => 0) (fun _ => 0)).2 0 ≤ 1) ∧
    ((0:ℚ) ≤ 255 ∧ 0 ≤ fillChannel 255 0 ∧ fillChannel 255 0 ≤ 255) := by
  refine ⟨by norm_num, fun i => ⟨le_refl 0, by norm_num⟩, ?_, by norm_num, ?_⟩
  · exact C3_value_ranges.1 1 (2/25) (fun _ => 0) (fun _ => 0) (by norm_num)
      (fun i => ⟨le_refl 0, by norm_num⟩) (fun i => le_refl 0) 0
  · exact C3_value_ranges.2.2.2.2.1 255 0 (by norm_num) (by norm_num)

/-! ## Claim C1: the monotone spline and overshoot -/

/-- Correctness of the fueled binary search: with enough fuel, it returns
the unique index i in [lo, hi] such that the predicate cpX (j+1) < x holds
exactly for the j below i. -/
theorem bsearchGo_eq (cpX : ℕ → ℚ) (x : ℚ) :
    ∀ (fuel lo hi i : ℕ), hi - lo ≤ fuel → lo ≤ i → i ≤ hi →
      (∀ j, lo ≤ j → j ≤ hi → (cpX (j+1) < x ↔ j < i)) →
      bsearchGo cpX x fuel lo hi = i := by
  intro fuel
  induction fuel with
  | zero =>
      intro lo hi i hf h1 h2 _
      simp only [bsearchGo]
      omega
  | succ fuel ih =>
      intro lo hi i hf h1 h2 hiff
      by_cases hlh : lo < hi
      · have hmlo : lo ≤ (lo + hi) / 2 := by omega
        have hmhi : (lo + hi) / 2 < hi := by omega
        by_cases hc : cpX ((lo + hi) / 2 + 1) < x
        · have hmi : (lo + hi) / 2 < i := (hiff _ hmlo (le_of_lt hmhi)).mp hc
          rw [bsearchGo, if_pos hlh, if_pos hc]
          exact ih ((lo + hi) / 2 + 1) hi i (by omega) (by omega) h2
            (fun j hj1 hj2 => hiff j (by omega) hj2)
        · have hmi : i ≤ (lo + hi) / 2 := by
            by_contra hlt
            exact hc ((hiff _ hmlo (le_of_lt hmhi)).mpr (by omega))
          rw [bsearchGo, if_pos hlh, if_neg hc]
          exact ih lo ((lo + hi) / 2) i (by omega) h1 hmi
            (fun j hj1 hj2 => hiff j hj1 (by omega))
      · rw [bsearchGo, if_neg hlh]
        omega

/-- No-overshoot bound for one cubic Hermite segment with nondecreasing
endpoint values, under the Fritsch-Carlson tangent condition: both scaled
tangents lie between 0 and three times the value increase. -/
theorem hermite_nondecreasing (y0 y1 m0 m1 h t : ℚ) (ht0 : 0 ≤ t) (ht1 : t ≤ 1)
    (hy : y0 ≤ y1) (h0a : 0 ≤ h * m0) (h0b : h * m0 ≤ 3 * (y1 - y0))
    (h1a : 0 ≤ h * m1) (h1b : h * m1 ≤ 3 * (y1 - y0)) :
    y0 ≤ hermite y0 y1 m0 m1 h t ∧ hermite y0 y1 m0 m1 h t ≤ y1 := by
  have e1 : hermite y0 y1 m0 m1 h t - y0
      = t^3 * (y1 - y0) + t * (1-t)^2 * (h * m0)
        + t^2 * (1-t) * (3 * (y1 - y0) - h * m1) := by
    unfold hermite; ring
  have e2 : y1 - hermite y0 y1 m0 m1 h t
      = (1-t)^3 * (y1 - y0) + t^2 * (1-t) * (h * m1)
        + t * (1-t)^2 * (3 * (y1 - y0) - h * m0) := by
    unfold hermite; ring
  have p1 : 0 ≤ t^3 * (y1 - y0) := mul_nonneg (by positivity) (by linarith)
  have p2 : 0 ≤ t * (1-t)^2 * (h * m0) := mul_nonneg (mul_nonneg ht0 (by positivity)) h0a
  have p3 : 0 ≤ t^2 * (1-t) * (3 * (y1 - y0) - h * m1) :=
    mul_nonneg (mul_nonneg (by positivity) (by linarith)) (by linarith)
  have q1 : 0 ≤ (1-t)^3 * (y1 - y0) :=
    mul_nonneg (pow_nonneg (by linarith) 3) (by linarith)
  have q2 : 0 ≤ t^2 * (1-t) * (h * m1) :=
    mul_nonneg (mul_nonneg (by positivity) (by linarith)) h1a
  have q3 : 0 ≤ t * (1-t)^2 * (3 * (y1 - y0) - h * m0) :=
    mul_nonneg (mul_nonneg ht0 (by positivity)) (by linarith)
  constructor
  · linarith [e1, p1, p2, p3]
  · linarith [e2, q1, q2, q3]

/-- C1 amended: between two consecutive control points the evaluated curve
stays inside the closed interval spanned by their y values PROVIDED both
segment tangents satisfy the Fritsch-Carlson bound: scaled by the segment
width, each tangent lies between 0 and three times the y increase (for a
nondecreasing pair; mirrored for a nonincreasing pair).  The tangents that
precomputeTangents produces do not always satisfy this bound, and the curve
can then overshoot (see the counterexample). -/
theorem C1_no_overshoot_with_tangent_bound
    (cx cy ct : ℕ → ℚ) (n i : ℕ) (x : ℚ)
    (hn : 2 ≤ n) (hi : i + 1 ≤ n - 1)
    (hmono : ∀ a b : ℕ, a < b → b ≤ n - 1 → cx a < cx b)
    (hx1 : cx i < x) (hx2 : x ≤ cx (i+1))
    (hfc : (cy i ≤ cy (i+1) ∧
            0 ≤ (cx (i+1) - cx i) * ct i ∧
            (cx (i+1) - cx i) * ct i ≤ 3 * (cy (i+1) - cy i) ∧
            0 ≤ (cx (i+1) - cx i) * ct (i+1) ∧
            (cx (i+1) - cx i) * ct (i+1) ≤ 3 * (cy (i+1) - cy i)) ∨
           (cy (i+1) ≤ cy i ∧
            3 * (cy (i+1) - cy i) ≤ (cx (i+1) - cx i) * ct i ∧
            (cx (i+1) - cx i) * ct i ≤ 0 ∧
            3 * (cy (i+1) - cy i) ≤ (cx (i+1) - cx i) * ct (i+1) ∧
            (cx (i+1) - cx i) * ct (i+1) ≤ 0)) :
    min (cy i) (cy (i+1)) ≤ evalCurve cx cy ct n x ∧
    evalCurve cx cy ct n x ≤ max (cy i) (cy (i+1)) := by
  have hn0 : ¬ n = 0 := by omega
  have hg2 : ¬ x ≤ cx 0 := by
    rcases Nat.eq_zero_or_pos i with hi0 | hipos
    · subst hi0; linarith
    · have := hmono 0 i hipos (by omega)
      linarith
  by_cases hg3 : cx (n-1) ≤ x
  · have hieq : i + 1 = n - 1 := by
      by_contra hne
      have hlt : i + 1 < n - 1 := by omega
      have := hmono (i+1) (n-1) hlt (le_refl _)
      linarith
    have hval : evalCurve cx cy ct n x = cy (n-1) := by
      unfold evalCurve
      rw [if_neg hn0, if_neg hg2, if_pos hg3]
    rw [hval, ← hieq]
    exact ⟨min_le_right _ _, le_max_right _ _⟩
  · have hxlt : x < cx (n-1) := not_le.mp hg3
    have hb : bsearchGo cx x (n-2) 0 (n-2) = i := by
      apply bsearchGo_eq cx x (n-2) 0 (n-2) i (le_refl _) (Nat.zero_le _) (by omega)
      intro j _ hj2
      constructor
      · intro hcx
        by_contra hji
        have hij : i ≤ j := by omega
        have : cx (i+1) ≤ cx (j+1) := by
          rcases Nat.eq_or_lt_of_le hij with rfl | hlt
          · exact le_refl _
          · exact le_of_lt (hmono (i+1) (j+1) (by omega) (by omega))
        linarith
      · intro hji
        have : cx (j+1) ≤ cx i := by
          rcases Nat.eq_or_lt_of_le (show j + 1 ≤ i by omega) with heq | hlt
          · rw [heq]
          · exact le_of_lt (hmono (j+1) i hlt (by omega))
        linarith
    have hwidth : 0 < cx (i+1) - cx i := by
      have := hmono i (i+1) (by omega) (by omega)
      linarith
    have hval : evalCurve cx cy ct n x
        = hermite (cy i) (cy (i+1)) (ct i) (ct (i+1)) (cx (i+1) - cx i)
            ((x - cx i) / (cx (i+1) - cx i)) := by
      unfold evalCurve
      rw [if_neg hn0, if_neg hg2, if_neg hg3, hb]
      unfold evalSegment
      rw [if_neg (by linarith)]
    have ht0 : 0 ≤ (x - cx i) / (cx (i+1) - cx i) :=
      div_nonneg (by linarith) (le_of_lt hwidth)
    have ht1 : (x - cx i) / (cx (i+1) - cx i) ≤ 1 := by
      rw [div_le_one hwidth]
      linarith
    rw [hval]
    rcases hfc with ⟨hy, c1, c2, c3, c4⟩ | ⟨hy, c1, c2, c3, c4⟩
    · obtain ⟨hl, hr⟩ := hermite_nondecreasing (cy i) (cy (i+1)) (ct i) (ct (i+1))
        (cx (i+1) - cx i) ((x - cx i) / (cx (i+1) - cx i)) ht0 ht1 hy c1 c2 c3 c4
      rw [min_eq_left hy, max_eq_right hy]
      exact ⟨hl, hr⟩
    · obtain ⟨hl, hr⟩ := hermite_nondecreasing (-(cy i)) (-(cy (i+1))) (-(ct i))
        (-(ct (i+1))) (cx (i+1) - cx i) ((x - cx i) / (cx (i+1) - cx i)) ht0 ht1
        (by linarith) (by rw [mul_neg]; linarith) (by rw [mul_neg]; linarith)
        (by rw [mul_neg]; linarith) (by rw [mul_neg]; linarith)
      have hneg : hermite (-(cy i)) (-(cy (i+1))) (-(ct i)) (-(ct (i+1)))
          (cx (i+1) - cx i) ((x - cx i) / (cx (i+1) - cx i))
          = - hermite (cy i) (cy (i+1)) (ct i) (ct (i+1)) (cx (i+1) - cx i)
              ((x - cx i) / (cx (i+1) - cx i)) := by
        unfold hermite
        ring
      rw [hneg] at hl hr
      rw [min_eq_right hy, max_eq_left hy]
      constructor <;> linarith

/-- Closed instance of the amended C1 theorem on a flat two-point segment. -/
theorem C1_no_overshoot_with_tangent_bound_witness :
    (2:ℕ) ≤ 2 ∧
    (∀ a b : ℕ, a < b → b ≤ 2 - 1 → ((a : ℚ)) < ((b : ℚ))) ∧
    ((fun k : ℕ => (k : ℚ)) 0 < (1/2 : ℚ)) ∧
    ((1/2 : ℚ) ≤ (fun k : ℕ => (k : ℚ)) 1) ∧
    (min (0:ℚ) 0 ≤ evalCurve (fun k : ℕ => (k : ℚ)) (fun _ => 0) (fun _ => 0) 2 (1/2) ∧
      evalCurve (fun k : ℕ => (k : ℚ)) (fun _ => 0) (fun _ => 0) 2 (1/2) ≤ max (0:ℚ) 0) := by
  have hm : ∀ a b : ℕ, a < b → b ≤ 2 - 1 → ((a : ℚ)) < ((b : ℚ)) := by
    intro a b hab _
    exact_mod_cast hab
  refine ⟨le_refl 2, hm, by norm_num, by norm_num, ?_⟩
  exact C1_no_overshoot_with_tangent_bound (fun k : ℕ => (k : ℚ)) (fun _ => 0)
    (fun _ => 0) 2 0 (1/2) (le_refl 2) (by norm_num) hm (by norm_num) (by norm_num)
    (Or.inl (by norm_num))

/-- Counterexample bins for claim C1 as stated: the five dial bins
0.99, 1, 1, 1, 1. -/
def ceBins : ℕ → ℚ := fun i => if i = 0 then 99/100 else 1

def ceX : ℕ → ℚ := cpXBuilt 5

def ceY : ℕ → ℚ := cpYBuilt ceBins 5 0 1

def ceT : ℕ → ℚ := cpTangents ceX ceY 7

/-- C1 counterexample: the control points built by renderVisualizerFrame for
bins 0.99, 1, 1, 1, 1 with edges 0 and 1 have nondecreasing y values, yet the
curve evaluated with the tangents of precomputeTangents at x = 39.8, which
lies between control points 1 and 2, exceeds the maximum of the two
surrounding y values: the claimed no-overshoot property fails on the code. -/
theorem C1_counterexample :
    (∀ k, k < 6 → ceY k ≤ ceY (k+1)) ∧
    ceX 1 ≤ 199/5 ∧ (199/5 : ℚ) ≤ ceX 2 ∧
    max (ceY 1) (ceY 2) < evalCurve ceX ceY ceT 7 (199/5) := by
  have hX0 : ceX 0 = 0 := by norm_num [ceX, cpXBuilt, STRIP_WIDTH]
  have hX1 : ceX 1 = 199/10 := by norm_num [ceX, cpXBuilt, STRIP_WIDTH]
  have hX2 : ceX 2 = 597/10 := by norm_num [ceX, cpXBuilt, STRIP_WIDTH]
  have hX3 : ceX 3 = 199/2 := by norm_num [ceX, cpXBuilt, STRIP_WIDTH]
  have hX6 : ceX 6 = 199 := by norm_num [ceX, cpXBuilt, STRIP_WIDTH]
  have hY0 : ceY 0 = 0 := by norm_num [ceY, cpYBuilt, ceBins, clamp01, max_def, min_def]
  have hY1 : ceY 1 = 99/100 := by
    norm_num [ceY, cpYBuilt, ceBins, clamp01, max_def, min_def]
  have hY2 : ceY 2 = 1 := by norm_num [ceY, cpYBuilt, ceBins, clamp01, max_def, min_def]
  have hY3 : ceY 3 = 1 := by norm_num [ceY, cpYBuilt, ceBins, clamp01, max_def, min_def]
  have hS0 : cpSlopes ceX ceY 0 = 99/1990 := by
    norm_num [cpSlopes, hX0, hX1, hY0, hY1]
  have hS1 : cpSlopes ceX ceY 1 = 1/3980 := by
    norm_num [cpSlopes, hX1, hX2, hY1, hY2]
  have hS2 : cpSlopes ceX ceY 2 = 0 := by
    norm_num [cpSlopes, hX2, hX3, hY2, hY3]
  have hT1 : ceT 1 = 1/40 := by
    norm_num [ceT, cpTangents, hS0, hS1]
  have hT2 : ceT 2 = 0 := by
    norm_num [ceT, cpTangents, hS1, hS2]
  have hbs : bsearchGo ceX (199/5) 5 0 5 = 1 := by
    norm_num [bsearchGo, hX1, hX2, hX3]
  refine ⟨?_, ?_, ?_, ?_⟩
  · intro k hk
    interval_cases k <;>
      norm_num [ceY, cpYBuilt, ceBins, clamp01, max_def, min_def]
  · norm_num [ceX, cpXBuilt, STRIP_WIDTH]
  · norm_num [ceX, cpXBuilt, STRIP_WIDTH]
  · norm_num [evalCurve, evalSegment, hermite, hbs, hX0, hX1, hX2, hX6,
      hY1, hY2, hT1, hT2, max_def, min_def]

/-! ## Claim C7: WasapiAudioSource.getFrequencyData bass branch
(part_004 lines 360-376)

The log-spaced center frequency of a bin is computed with exp/log and is
treated here as a parameter c.  The bass branch scans the 9 Goertzel probe
frequencies for the last probe at or below c and the first probe at or
above c, then linearly interpolates the two probe magnitudes. -/

def BASS_FREQS : List ℚ := [30, 45, 65, 90, 125, 175, 250, 350, 500]

/-- Loop body updating below: the last scanned probe at or below c wins. -/
def belowStep (c : ℚ) (b g : ℕ) : ℕ :=
  if BASS_FREQS.getD g 0 ≤ c then g else b

/-- Loop body updating above: the first scanned probe at or above c wins
(the update is guarded by above still holding its initial value). -/
def aboveStep (c : ℚ) (a g : ℕ) : ℕ :=
  if c ≤ BASS_FREQS.getD g 0 ∧ a = BASS_FREQS.length - 1 then g else a

/-- The probe scan of the bass branch: below starts at 0, above starts at
the last probe index. -/
def bassIndices (c : ℚ) : ℕ × ℕ :=
  (List.range BASS_FREQS.length).foldl
    (fun p g => (belowStep c p.1 g, aboveStep c p.2 g))
    (0, BASS_FREQS.length - 1)

/-- The raw magnitude of the bass branch: the single probe when the two scan
results agree, else linear interpolation with t = (c - lo) / (hi - lo),
where t falls back to 0 on an empty range. -/
def bassRawMag (mags : ℕ → ℚ) (c : ℚ) : ℚ :=
  if (bassIndices c).1 = (bassIndices c).2 then mags (bassIndices c).1
  else
    mags (bassIndices c).1 *
        (1 - (if 0 < BASS_FREQS.getD (bassIndices c).2 0 - BASS_FREQS.getD (bassIndices c).1 0
          then (c - BASS_FREQS.getD (bassIndices c).1 0) /
            (BASS_FREQS.getD (bassIndices c).2 0 - BASS_FREQS.getD (bassIndices c).1 0)
          else 0)) +
      mags (bassIndices c).2 *
        (if 0 < BASS_FREQS.getD (bassIndices c).2 0 - BASS_FREQS.getD (bassIndices c).1 0
          then (c - BASS_FREQS.getD (bassIndices c).1 0) /
            (BASS_FREQS.getD (bassIndices c).2 0 - BASS_FREQS.getD (bassIndices c).1 0)
          else 0)

theorem foldl_pair (f g : ℕ → ℕ → ℕ) :
    ∀ (l : List ℕ) (b a : ℕ),
      l.foldl (fun p x => (f p.1 x, g p.2 x)) (b, a) = (l.foldl f b, l.foldl g a) := by
  intro l
  induction l with
  | nil => intro b a; rfl
  | cons x xs ih => intro b a; exact ih (f b x) (g a x)

theorem foldl_below_nosat (c : ℚ) :
    ∀ (l : List ℕ) (b0 : ℕ), (∀ g ∈ l, ¬ BASS_FREQS.getD g 0 ≤ c) →
      l.foldl (belowStep c) b0 = b0 := by
  intro l
  induction l with
  | nil => intro b0 _; rfl
  | cons x xs ih =>
      intro b0 h
      have hx : ¬ BASS_FREQS.getD x 0 ≤ c := h x (List.mem_cons_self _ _)
      simp only [List.foldl_cons, belowStep, if_neg hx]
      exact ih b0 (fun g hg => h g (List.mem_cons_of_mem _ hg))

theorem foldl_above_nosat (c : ℚ) :
    ∀ (l : List ℕ) (a0 : ℕ), (∀ g ∈ l, ¬ c ≤ BASS_FREQS.getD g 0) →
      l.foldl (aboveStep c) a0 = a0 := by
  intro l
  induction l with
  | nil => intro a0 _; rfl
  | cons x xs ih =>
      intro a0 h
      have hx : ¬ c ≤ BASS_FREQS.getD x 0 := h x (List.mem_cons_self _ _)
      have hstep : aboveStep c a0 x = a0 := by
        unfold aboveStep
        rw [if_neg]
        intro hc
        exact hx hc.1
      simp only [List.foldl_cons, hstep]
      exact ih a0 (fun g hg => h g (List.mem_cons_of_mem _ hg))

theorem foldl_above_stuck (c : ℚ) :
    ∀ (l : List ℕ) (a0 : ℕ), a0 ≠ 8 →
      l.foldl (aboveStep c) a0 = a0 := by
  intro l
  induction l with
  | nil => intro a0 _; rfl
  | cons x xs ih =>
      intro a0 h
      have hstep : aboveStep c a0 x = a0 := by
        unfold aboveStep
        rw [if_neg]
        intro hc
        exact h (by simpa [BASS_FREQS] using hc.2)
      simp only [List.foldl_cons, hstep]
      exact ih a0 h

theorem bassIndices_split (c : ℚ) :
    bassIndices c =
      ((List.range 9).foldl (belowStep c) 0, (List.range 9).foldl (aboveStep c) 8) := by
  unfold bassIndices
  rw [show BASS_FREQS.length = 9 from rfl]
  exact foldl_pair _ _ _ 0 8

/-- The below scan returns exactly the largest probe index at or below c. -/
theorem bassIndices_below (c : ℚ) (j : ℕ) (hj8 : j ≤ 8)
    (hj : BASS_FREQS.getD j 0 ≤ c)
    (hlargest : ∀ g, g ≤ 8 → BASS_FREQS.getD g 0 ≤ c → g ≤ j) :
    (bassIndices c).1 = j := by
  rw [bassIndices_split]
  show (List.range 9).foldl (belowStep c) 0 = j
  have h9 : (9:ℕ) = (j+1) + (8-j) := by omega
  rw [h9, List.range_add, List.foldl_append, List.range_succ, List.foldl_append]
  have hlast : List.foldl (belowStep c) (List.foldl (belowStep c) 0 (List.range j)) [j] = j := by
    rw [List.foldl_cons, List.foldl_nil]
    unfold belowStep
    rw [if_pos hj]
  rw [hlast]
  apply foldl_below_nosat
  intro g hg
  obtain ⟨k, hk, rfl⟩ := List.mem_map.mp hg
  intro hle
  have hk8 : j + 1 + k ≤ 8 := by
    have := List.mem_range.mp hk
    omega
  have := hlargest (j + 1 + k) hk8 hle
  omega

/-- The above scan returns exactly the smallest probe index at or above c. -/
theorem bassIndices_above (c : ℚ) (k : ℕ) (hk8 : k ≤ 8)
    (hk : c ≤ BASS_FREQS.getD k 0)
    (hsmallest : ∀ g, g ≤ 8 → c ≤ BASS_FREQS.getD g 0 → k ≤ g) :
    (bassIndices c).2 = k := by
  rw [bassIndices_split]
  show (List.range 9).foldl (aboveStep c) 8 = k
  have h9 : (9:ℕ) = (k+1) + (8-k) := by omega
  rw [h9, List.range_add, List.foldl_append, List.range_succ, List.foldl_append]
  have hpre : List.foldl (aboveStep c) 8 (List.range k) = 8 := by
    apply foldl_above_nosat
    intro g hg
    intro hle
    have hgk : g < k := List.mem_range.mp hg
    have := hsmallest g (by omega) hle
    omega
  rw [hpre]
  have hat : List.foldl (aboveStep c) 8 [k] = k := by
    rw [List.foldl_cons, List.foldl_nil]
    unfold aboveStep
    rw [if_pos ⟨hk, rfl⟩]
  rw [hat]
  by_cases hk8e : k = 8
  · subst hk8e
    simp
  · exact foldl_above_stuck c _ k hk8e

/-- C7: in the bass branch of getFrequencyData, whenever j is the largest
probe index at or below the center frequency c and k is the smallest probe
index at or above c, the raw magnitude is the linear interpolation of the
two probe magnitudes at t = (c - freq j) / (freq k - freq j) (with t = 0
when the two probes coincide); when c lies below the lowest probe 30 the
result is the magnitude of probe 0 unchanged, and when c lies above the
highest probe 500 it is the magnitude of probe 8 unchanged. -/
theorem C7_bass_interpolation (mags : ℕ → ℚ) (c : ℚ) :
    (∀ j k : ℕ, j ≤ 8 → k ≤ 8 →
      BASS_FREQS.getD j 0 ≤ c →
      (∀ g, g ≤ 8 → BASS_FREQS.getD g 0 ≤ c → g ≤ j) →
      c ≤ BASS_FREQS.getD k 0 →
      (∀ g, g ≤ 8 → c ≤ BASS_FREQS.getD g 0 → k ≤ g) →
      bassRawMag mags c =
        mags j * (1 - (if 0 < BASS_FREQS.getD k 0 - BASS_FREQS.getD j 0
            then (c - BASS_FREQS.getD j 0) / (BASS_FREQS.getD k 0 - BASS_FREQS.getD j 0)
            else 0)) +
          mags k * (if 0 < BASS_FREQS.getD k 0 - BASS_FREQS.getD j 0
            then (c - BASS_FREQS.getD j 0) / (BASS_FREQS.getD k 0 - BASS_FREQS.getD j 0)
            else 0)) ∧
    (c < 30 → bassRawMag mags c = mags 0) ∧
    (500 < c → bassRawMag mags c = mags 8) := by
  have hmono : ∀ a, a < 9 → ∀ b, b < 9 → a < b →
      BASS_FREQS.getD a 0 < BASS_FREQS.getD b 0 := by decide
  refine ⟨?_, ?_, ?_⟩
  · intro j k hj8 hk8 hj hlargest hk hsmallest
    have hb := bassIndices_below c j hj8 hj hlargest
    have ha := bassIndices_above c k hk8 hk hsmallest
    by_cases hjk : j = k
    · subst hjk
      unfold bassRawMag
      rw [hb, ha, if_pos rfl]
      have hz : ¬ 0 < BASS_FREQS.getD j 0 - BASS_FREQS.getD j 0 := by norm_num
      rw [if_neg hz]
      ring
    · have hjlt : j < k := by
        rcases Nat.lt_or_ge j k with h | h
        · exact h
        · have hlt : k < j := by omega
          have := hmono k (by omega) j (by omega) hlt
          linarith
      have hlt := hmono j (by omega) k (by omega) hjlt
      unfold bassRawMag
      rw [hb, ha, if_neg hjk]
  · intro hc
    have hlow : ∀ g, g < 9 → (30:ℚ) ≤ BASS_FREQS.getD g 0 := by decide
    have hb : (bassIndices c).1 = 0 := by
      rw [bassIndices_split]
      apply foldl_below_nosat
      intro g hg hle
      have := hlow g (List.mem_range.mp hg)
      linarith
    have ha : (bassIndices c).2 = 0 := by
      apply bassIndices_above c 0 (by omega)
      · have := hlow 0 (by omega)
        linarith
      · intro g _ _
        exact Nat.zero_le g
    unfold bassRawMag
    rw [hb, ha, if_pos rfl]
  · intro hc
    have hhigh : ∀ g, g < 9 → BASS_FREQS.getD g 0 ≤ (500:ℚ) := by decide
    have hb : (bassIndices c).1 = 8 := by
      apply bassIndices_below c 8 (le_refl 8)
      · have : BASS_FREQS.getD 8 0 = (500:ℚ) := by norm_num [BASS_FREQS]
        linarith [this]
      · intro g hg _
        exact hg
    have ha : (bassIndices c).2 = 8 := by
      rw [bassIndices_split]
      apply foldl_above_nosat
      intro g hg hle
      have := hhigh g (List.mem_range.mp hg)
      linarith
    unfold bassRawMag
    rw [hb, ha, if_pos rfl]

/-- Closed instance of C7_bass_interpolation at center frequency 50, which
lies between probes 1 (45 Hz) and 2 (65 Hz). -/
theorem C7_bass_interpolation_witness :
    (1:ℕ) ≤ 8 ∧ (2:ℕ) ≤ 8 ∧
    BASS_FREQS.getD 1 0 ≤ (50:ℚ) ∧ (50:ℚ) ≤ BASS_FREQS.getD 2 0 ∧
    bassRawMag (fun _ => 1) 50 =
      1 * (1 - (if 0 < BASS_FREQS.getD 2 0 - BASS_FREQS.getD 1 0
          then ((50:ℚ) - BASS_FREQS.getD 1 0) / (BASS_FREQS.getD 2 0 - BASS_FREQS.getD 1 0)
          else 0)) +
        1 * (if 0 < BASS_FREQS.getD 2 0 - BASS_FREQS.getD 1 0
          then ((50:ℚ) - BASS_FREQS.getD 1 0) / (BASS_FREQS.getD 2 0 - BASS_FREQS.getD 1 0)
          else 0) := by
  refine ⟨by omega, by omega, by norm_num [BASS_FREQS], by norm_num [BASS_FREQS], ?_⟩
  exact (C7_bass_interpolation (fun _ => 1) 50).1 1 2 (by omega) (by omega)
    (by norm_num [BASS_FREQS])
    (by intro g hg hle; interval_cases g <;> simp_all [BASS_FREQS] <;> linarith)
    (by norm_num [BASS_FREQS])
    (by intro g hg hle; interval_cases g <;> simp_all [BASS_FREQS] <;> linarith)

/-! ## Claim C6: PNG encoder and base64 data URI (src/unnamed/part_002)

Byte buffers are modelled as lists of naturals below 256.  The zlib
compressor (node deflateSync) is external to the repository and is modelled
as a function parameter; its round-trip contract with the matching inflate
is a hypothesis of the claim theorem.  Buffer writes at fixed offsets become
list concatenation of the corresponding chunks in offset order. -/

def WIDTH : ℕ := 200

def HEIGHT : ℕ := 100

def ROW_SIZE : ℕ := WIDTH * 4

/-- One RGBA pixel row of the input buffer. -/
def rowBytes (rgba : ℕ → ℕ) (y : ℕ) : List ℕ :=
  (List.range ROW_SIZE).map fun i => rgba (y * ROW_SIZE + i)

/-- The raw filtered buffer rawBuf: each pixel row preceded by the
filter byte 0 (part_002 lines 50-53 and 117-124). -/
def rawData (rgba : ℕ → ℕ) : List ℕ :=
  (List.range HEIGHT).flatMap fun y => 0 :: rowBytes rgba y

/-- One round of the CRC-32 table construction (part_002 lines 21-24). -/
def crcStep (c : ℕ) : ℕ :=
  if c &&& 1 = 1 then 0xedb88320 ^^^ (c >>> 1) else c >>> 1

def crcTable (n : ℕ) : ℕ := crcStep^[8] n

def crc32Update (crc b : ℕ) : ℕ := crcTable ((crc ^^^ b) &&& 255) ^^^ (crc >>> 8)

/-- crc32 over a byte list (part_002 lines 30-37). -/
def crc32 (l : List ℕ) : ℕ := (l.foldl crc32Update 0xffffffff) ^^^ 0xffffffff

/-- Big-endian 32-bit write (Buffer.writeUInt32BE). -/
def be32 (v : ℕ) : List ℕ :=
  [v / 2^24 % 256, v / 2^16 % 256, v / 2^8 % 256, v % 256]

def PNG_SIG : List ℕ := [137, 80, 78, 71, 13, 10, 26, 10]

def IHDR_TYPE : List ℕ := [73, 72, 68, 82]

def IDAT_TYPE : List ℕ := [73, 68, 65, 84]

def IEND_TYPE : List ℕ := [73, 69, 78, 68]

/-- The 13 IHDR data bytes for 200 x 100 8-bit RGBA (part_002 lines 77-85). -/
def IHDR_DATA : List ℕ := be32 WIDTH ++ be32 HEIGHT ++ [8, 6, 0, 0, 0]

def ihdrChunk : List ℕ :=
  be32 13 ++ IHDR_TYPE ++ IHDR_DATA ++ be32 (crc32 (IHDR_TYPE ++ IHDR_DATA))

/-- The IDAT chunk: length prefix, type tag, compressed payload, CRC over
type plus payload (part_002 lines 131-138). -/
def idatChunk (compressed : List ℕ) : List ℕ :=
  be32 compressed.length ++ IDAT_TYPE ++ compressed
    ++ be32 (crc32 (IDAT_TYPE ++ compressed))

def iendChunk : List ℕ := be32 0 ++ IEND_TYPE ++ be32 (crc32 IEND_TYPE)

/-- The assembled PNG byte sequence written into pngOut. -/
def pngBytes (deflate : List ℕ → List ℕ) (rgba : ℕ → ℕ) : List ℕ :=
  PNG_SIG ++ ihdrChunk ++ idatChunk (deflate (rawData rgba)) ++ iendChunk

/-- Character codes of the base64 alphabet string (part_002 lines 93-95). -/
def B64_CHARS_CODES : List ℕ :=
  [65, 66, 67, 68, 69, 70, 71, 72, 73, 74, 75, 76, 77, 78, 79, 80, 81, 82,
   83, 84, 85, 86, 87, 88, 89, 90,
   97, 98, 99, 100, 101, 102, 103, 104, 105, 106, 107, 108, 109, 110, 111,
   112, 113, 114, 115, 116, 117, 118, 119, 120, 121, 122,
   48, 49, 50, 51, 52, 53, 54, 55, 56, 57, 43, 47]

def b64T (i : ℕ) : ℕ := B64_CHARS_CODES.getD i 0

/-- The inline base64 encoder loop of encodePNGToDataURI (part_002 lines
149-177): 4 characters per 3 bytes, with the source bit operations, and
padding with the character code 61 for a 1- or 2-byte remainder. -/
def b64EncodeBytes : List ℕ → List ℕ
  | b0 :: b1 :: b2 :: rest =>
      b64T ((b0 >>> 2) &&& 63) :: b64T (((b0 <<< 4) ||| (b1 >>> 4)) &&& 63) ::
        b64T (((b1 <<< 2) ||| (b2 >>> 6)) &&& 63) :: b64T (b2 &&& 63) ::
        b64EncodeBytes rest
  | [b0, b1] =>
      [b64T ((b0 >>> 2) &&& 63), b64T (((b0 <<< 4) ||| (b1 >>> 4)) &&& 63),
       b64T ((b1 <<< 2) &&& 63), 61]
  | [b0] => [b64T ((b0 >>> 2) &&& 63), b64T ((b0 <<< 4) &&& 63), 61, 61]
  | [] => []

/-- Character codes of the fixed scheme marker "data:image/png;base64,". -/
def DATA_URI_HEAD : List ℕ :=
  [100, 97, 116, 97, 58, 105, 109, 97, 103, 101, 47, 112, 110, 103, 59,
   98, 97, 115, 101, 54, 52, 44]

/-- encodePNGToDataURI as the character-code sequence of the returned
string: the scheme marker followed by the base64 text of the PNG bytes. -/
def encodePNGToDataURI (deflate : List ℕ → List ℕ) (rgba : ℕ → ℕ) : List ℕ :=
  DATA_URI_HEAD ++ b64EncodeBytes (pngBytes deflate rgba)

/-- Modelled from the spec: the standard base64 value of an alphabet
character code (the decoder is not part of this repository; the claim
relates the produced text to standard base64 decoding). -/
def b64D (c : ℕ) : ℕ :=
  if 65 ≤ c ∧ c ≤ 90 then c - 65
  else if 97 ≤ c ∧ c ≤ 122 then c - 97 + 26
  else if 48 ≤ c ∧ c ≤ 57 then c - 48 + 52
  else if c = 43 then 62
  else if c = 47 then 63
  else 0

/-- Modelled from the spec: the standard base64 decoder over character
codes, 3 bytes per 4 characters, honoring the padding character 61. -/
def b64DecodeChars : List ℕ → List ℕ
  | c0 :: c1 :: c2 :: c3 :: rest =>
      if c2 = 61 then [(b64D c0 <<< 2) ||| (b64D c1 >>> 4)]
      else if c3 = 61 then
        [(b64D c0 <<< 2) ||| (b64D c1 >>> 4),
         ((b64D c1 &&& 15) <<< 4) ||| (b64D c2 >>> 2)]
      else
        ((b64D c0 <<< 2) ||| (b64D c1 >>> 4)) ::
          (((b64D c1 &&& 15) <<< 4) ||| (b64D c2 >>> 2)) ::
          (((b64D c2 &&& 3) <<< 6) ||| b64D c3) ::
          b64DecodeChars rest
  | _ => []

/-! ## Bitwise bridge lemmas for the base64 round trip -/

theorem lor_shiftLeft_add (a b k : ℕ) (h : b < 2^k) :
    (a <<< k) ||| b = a * 2^k + b := by
  rw [Nat.shiftLeft_eq, mul_comm]
  apply Nat.eq_of_testBit_eq
  intro i
  have h0 : (0:ℕ) < 2^k := Nat.pos_pow_of_pos k (by norm_num)
  have e0 : (2^k*a).testBit i = (2^k*a + 0).testBit i := by rw [Nat.add_zero]
  rw [Nat.testBit_lor, e0, Nat.testBit_mul_pow_two_add a h0 i,
    Nat.testBit_mul_pow_two_add a h i]
  rcases lt_or_le i k with hik | hik
  · simp [hik]
  · have hb : b < 2^i := lt_of_lt_of_le h (Nat.pow_le_pow_right (by norm_num) hik)
    simp [Nat.testBit_lt_two_pow hb, if_neg (Nat.not_lt.mpr hik)]

theorem and63_eq (x : ℕ) : x &&& 63 = x % 64 := by
  have h := Nat.and_pow_two_sub_one_eq_mod x 6
  norm_num at h
  exact h

theorem and15_eq (x : ℕ) : x &&& 15 = x % 16 := by
  have h := Nat.and_pow_two_sub_one_eq_mod x 4
  norm_num at h
  exact h

theorem and3_eq (x : ℕ) : x &&& 3 = x % 4 := by
  have h := Nat.and_pow_two_sub_one_eq_mod x 2
  norm_num at h
  exact h

theorem sextet0_lt (b0 : ℕ) : (b0 >>> 2) &&& 63 < 64 := by
  rw [and63_eq]
  exact Nat.mod_lt _ (by norm_num)

theorem sextet_and63_lt (x : ℕ) : x &&& 63 < 64 := by
  rw [and63_eq]
  exact Nat.mod_lt _ (by norm_num)

theorem b64D_b64T : ∀ v, v < 64 → b64D (b64T v) = v := by decide

theorem b64T_ne_61 : ∀ v, v < 64 → b64T v ≠ 61 := by decide

theorem recover_byte0 (b0 b1 : ℕ) (h0 : b0 < 256) (h1 : b1 < 256) :
    (((b0 >>> 2) &&& 63) <<< 2) ||| ((((b0 <<< 4) ||| (b1 >>> 4)) &&& 63) >>> 4)
      = b0 := by
  rw [Nat.shiftRight_eq_div_pow b1 4,
    lor_shiftLeft_add b0 (b1 / 2^4) 4 (by omega),
    Nat.shiftRight_eq_div_pow b0 2, and63_eq, and63_eq,
    Nat.shiftRight_eq_div_pow _ 4,
    lor_shiftLeft_add _ _ 2 (by omega)]
  norm_num
  omega

theorem recover_byte1 (b0 b1 b2 : ℕ) (h0 : b0 < 256) (h1 : b1 < 256)
    (h2 : b2 < 256) :
    (((((b0 <<< 4) ||| (b1 >>> 4)) &&& 63) &&& 15) <<< 4) |||
        ((((b1 <<< 2) ||| (b2 >>> 6)) &&& 63) >>> 2) = b1 := by
  rw [Nat.shiftRight_eq_div_pow b1 4,
    lor_shiftLeft_add b0 (b1 / 2^4) 4 (by omega),
    Nat.shiftRight_eq_div_pow b2 6,
    lor_shiftLeft_add b1 (b2 / 2^6) 2 (by omega),
    and63_eq, and63_eq, and15_eq,
    Nat.shiftRight_eq_div_pow _ 2,
    lor_shiftLeft_add _ _ 4 (by omega)]
  norm_num
  omega

theorem recover_byte2 (b1 b2 : ℕ) (h1 : b1 < 256) (h2 : b2 < 256) :
    ((((((b1 <<< 2) ||| (b2 >>> 6)) &&& 63)) &&& 3) <<< 6) ||| (b2 &&& 63)
      = b2 := by
  rw [Nat.shiftRight_eq_div_pow b2 6,
    lor_shiftLeft_add b1 (b2 / 2^6) 2 (by omega),
    and63_eq, and63_eq, and3_eq,
    lor_shiftLeft_add _ _ 6 (by omega)]
  norm_num
  omega

theorem recover_byte0_pad1 (b0 : ℕ) (h0 : b0 < 256) :
    (((b0 >>> 2) &&& 63) <<< 2) ||| (((b0 <<< 4) &&& 63) >>> 4) = b0 := by
  rw [Nat.shiftRight_eq_div_pow b0 2, Nat.shiftLeft_eq b0 4,
    and63_eq, and63_eq, Nat.shiftRight_eq_div_pow _ 4,
    lor_shiftLeft_add _ _ 2 (by omega)]
  norm_num
  omega

theorem recover_byte1_pad2 (b0 b1 : ℕ) (h0 : b0 < 256) (h1 : b1 < 256) :
    (((((b0 <<< 4) ||| (b1 >>> 4)) &&& 63) &&& 15) <<< 4) |||
        (((b1 <<< 2) &&& 63) >>> 2) = b1 := by
  rw [Nat.shiftRight_eq_div_pow b1 4,
    lor_shiftLeft_add b0 (b1 / 2^4) 4 (by omega),
    Nat.shiftLeft_eq b1 2,
    and63_eq, and63_eq, and15_eq,
    Nat.shiftRight_eq_div_pow _ 2,
    lor_shiftLeft_add _ _ 4 (by omega)]
  norm_num
  omega

/-- Round trip of the source base64 encoder against the standard decoder,
for byte lists. -/
theorem b64_roundtrip :
    ∀ l : List ℕ, (∀ b ∈ l, b < 256) → b64DecodeChars (b64EncodeBytes l) = l := by
  intro l
  induction l using b64EncodeBytes.induct with
  | case1 b0 b1 b2 rest ih =>
      intro h
      have h0 : b0 < 256 := h b0 (by simp)
      have h1 : b1 < 256 := h b1 (by simp)
      have h2 : b2 < 256 := h b2 (by simp)
      rw [b64EncodeBytes, b64DecodeChars]
      rw [if_neg (b64T_ne_61 _ (sextet_and63_lt _)),
        if_neg (b64T_ne_61 _ (sextet_and63_lt _))]
      rw [b64D_b64T _ (sextet_and63_lt _), b64D_b64T _ (sextet_and63_lt _),
        b64D_b64T _ (sextet_and63_lt _), b64D_b64T _ (sextet_and63_lt _)]
      rw [recover_byte0 b0 b1 h0 h1, recover_byte1 b0 b1 b2 h0 h1 h2,
        recover_byte2 b1 b2 h1 h2]
      rw [ih (fun b hb => h b (by simp [hb]))]
  | case2 b0 b1 =>
      intro h
      have h0 : b0 < 256 := h b0 (by simp)
      have h1 : b1 < 256 := h b1 (by simp)
      rw [b64EncodeBytes, b64DecodeChars]
      rw [if_neg (b64T_ne_61 _ (sextet_and63_lt _)), if_pos rfl]
      rw [b64D_b64T _ (sextet_and63_lt _), b64D_b64T _ (sextet_and63_lt _),
        b64D_b64T _ (sextet_and63_lt _)]
      rw [recover_byte0 b0 b1 h0 h1, recover_byte1_pad2 b0 b1 h0 h1]
  | case3 b0 =>
      intro h
      have h0 : b0 < 256 := h b0 (by simp)
      rw [b64EncodeBytes, b64DecodeChars]
      rw [if_pos rfl]
      rw [b64D_b64T _ (sextet_and63_lt _), b64D_b64T _ (sextet_and63_lt _)]
      rw [recover_byte0_pad1 b0 h0]
  | case4 =>
      intro _
      rfl

/-- The encoder writes exactly 4 output characters per 3 input bytes, with a
4-character padded group for a 1- or 2-byte remainder. -/
theorem b64EncodeBytes_length :
    ∀ l : List ℕ, (b64EncodeBytes l).length = 4 * ((l.length + 2) / 3) := by
  intro l
  induction l using b64EncodeBytes.induct with
  | case1 b0 b1 b2 rest ih =>
      rw [b64EncodeBytes]
      simp only [List.length_cons, ih]
      omega
  | case2 b0 b1 => rw [b64EncodeBytes]; norm_num
  | case3 b0 => rw [b64EncodeBytes]; norm_num
  | case4 => rfl

theorem be32_bytes_lt (v : ℕ) : ∀ b ∈ be32 v, b < 256 := by
  intro b hb
  simp only [be32, List.mem_cons, List.not_mem_nil, or_false] at hb
  rcases hb with rfl | rfl | rfl | rfl <;> exact Nat.mod_lt _ (by norm_num)

theorem pngBytes_lt (deflate : List ℕ → List ℕ) (rgba : ℕ → ℕ)
    (hD : ∀ b ∈ deflate (rawData rgba), b < 256) :
    ∀ b ∈ pngBytes deflate rgba, b < 256 := by
  intro b hb
  have hsig : ∀ b ∈ PNG_SIG, b < 256 := by decide
  have hihdrT : ∀ b ∈ IHDR_TYPE, b < 256 := by decide
  have hidatT : ∀ b ∈ IDAT_TYPE, b < 256 := by decide
  have hiendT : ∀ b ∈ IEND_TYPE, b < 256 := by decide
  have hfive : ∀ b ∈ ([8, 6, 0, 0, 0] : List ℕ), b < 256 := by decide
  simp only [pngBytes, ihdrChunk, idatChunk, iendChunk, IHDR_DATA,
    List.append_assoc, List.mem_append] at hb
  rcases hb with h | h | h | h | h | h | h | h | h | h | h | h | h | h
  · exact hsig b h
  · exact be32_bytes_lt _ b h
  · exact hihdrT b h
  · exact be32_bytes_lt _ b h
  · exact be32_bytes_lt _ b h
  · exact hfive b h
  · exact be32_bytes_lt _ b h
  · exact be32_bytes_lt _ b h
  · exact hidatT b h
  · exact hD b h
  · exact be32_bytes_lt _ b h
  · exact be32_bytes_lt _ b h
  · exact hiendT b h
  · exact be32_bytes_lt _ b h

/-- Reading one fixed-size block out of a flatMap of fixed-size blocks. -/
theorem flatMap_block {α : Type} (s : ℕ) :
    ∀ (y n : ℕ) (g : ℕ → List α), (∀ k, (g k).length = s) → y < n →
      (((List.range n).flatMap g).drop (y * s)).take s = g y := by
  intro y
  induction y with
  | zero =>
      intro n g hs hy
      obtain ⟨m, rfl⟩ : ∃ m, n = m + 1 := ⟨n - 1, by omega⟩
      rw [List.range_succ_eq_map, List.flatMap_cons, Nat.zero_mul, List.drop_zero]
      exact List.take_left' (hs 0)
  | succ y ih =>
      intro n g hs hy
      obtain ⟨m, rfl⟩ : ∃ m, n = m + 1 := ⟨n - 1, by omega⟩
      rw [List.range_succ_eq_map, List.flatMap_cons]
      have hstep : (y + 1) * s = (g 0).length + y * s := by rw [hs 0]; ring
      rw [hstep, List.drop_append, List.flatMap_map]
      exact ih m (fun k => g (k + 1)) (fun k => hs (k + 1)) (by omega)

theorem ihdrChunk_length : ihdrChunk.length = 25 := by
  simp [ihdrChunk, be32, IHDR_TYPE, IHDR_DATA]

/-- C6: the data URI character sequence is the fixed scheme marker followed
by the base64 text of the PNG bytes, 4 characters per 3 bytes; standard
base64 decoding of the text after the marker recovers exactly the PNG
bytes; the IDAT payload of the PNG is the deflate output, so inflating it
(for any inflate that inverts the given deflate on the raw buffer) recovers
the raw filtered buffer; and that buffer consists of the RGBA pixel rows,
each preceded by a zero filter byte. -/
theorem C6_png_datauri_roundtrip (deflate : List ℕ → List ℕ) (rgba : ℕ → ℕ)
    (hD : ∀ b ∈ deflate (rawData rgba), b < 256) :
    ((encodePNGToDataURI deflate rgba).take 22 = DATA_URI_HEAD) ∧
    ((encodePNGToDataURI deflate rgba).length
        = 22 + 4 * (((pngBytes deflate rgba).length + 2) / 3)) ∧
    (b64DecodeChars ((encodePNGToDataURI deflate rgba).drop 22)
        = pngBytes deflate rgba) ∧
    ((((pngBytes deflate rgba).drop 41).take (deflate (rawData rgba)).length)
        = deflate (rawData rgba)) ∧
    (∀ inflate : List ℕ → List ℕ,
      inflate (deflate (rawData rgba)) = rawData rgba →
      inflate ((((pngBytes deflate rgba).drop 41).take
          (deflate (rawData rgba)).length)) = rawData rgba) ∧
    (∀ y, y < HEIGHT →
      (((rawData rgba).drop (y * (ROW_SIZE + 1))).take (ROW_SIZE + 1))
        = 0 :: rowBytes rgba y) := by
  have hhead : DATA_URI_HEAD.length = 22 := by decide
  have hpayload :
      (((pngBytes deflate rgba).drop 41).take (deflate (rawData rgba)).length)
        = deflate (rawData rgba) := by
    have hassoc : pngBytes deflate rgba
        = (PNG_SIG ++ ihdrChunk ++ be32 (deflate (rawData rgba)).length
            ++ IDAT_TYPE)
          ++ (deflate (rawData rgba)
            ++ (be32 (crc32 (IDAT_TYPE ++ deflate (rawData rgba))) ++ iendChunk)) := by
      simp [pngBytes, idatChunk, List.append_assoc]
    have hlen41 : (PNG_SIG ++ ihdrChunk ++ be32 (deflate (rawData rgba)).length
        ++ IDAT_TYPE).length = 41 := by
      simp [PNG_SIG, ihdrChunk_length, be32, IDAT_TYPE]
    rw [hassoc, List.drop_left' hlen41]
    exact List.take_left' rfl
  refine ⟨?_, ?_, ?_, hpayload, ?_, ?_⟩
  · exact List.take_left' hhead
  · unfold encodePNGToDataURI
    rw [List.length_append, hhead, b64EncodeBytes_length]
  · unfold encodePNGToDataURI
    rw [List.drop_left' hhead]
    exact b64_roundtrip _ (pngBytes_lt deflate rgba hD)
  · intro inflate hinv
    rw [hpayload, hinv]
  · intro y hy
    unfold rawData
    apply flatMap_block
    · intro k
      simp [rowBytes]
    · exact hy

/-- Closed instance of C6_png_datauri_roundtrip with the constant empty
compressor and the all-zero pixel buffer. -/
theorem C6_png_datauri_roundtrip_witness :
    (∀ b ∈ (fun _ : List ℕ => ([] : List ℕ)) (rawData fun _ => 0), b < 256) ∧
    b64DecodeChars
        ((encodePNGToDataURI (fun _ => []) (fun _ => 0)).drop 22)
      = pngBytes (fun _ => []) (fun _ => 0) := by
  refine ⟨fun b hb => absurd hb (List.not_mem_nil b), ?_⟩
  exact (C6_png_datauri_roundtrip (fun _ => []) (fun _ => 0)
    (fun b hb => absurd hb (List.not_mem_nil b))).2.2.1

end Audiovis
